import Mathlib

/-!
Verification of the local statevector-simulation repository
(`utilities.h`, `local_controls.c`, `local_qft.c`).

The C code is shallowly embedded: amplitude arrays become functions
`ℕ → ℝ` (the control benchmarks use real arrays) or `ℕ → ℂ` (the QFT
file), in-place writes become `Function.update`, `for` loops become
folds over `List.range`, and the unsigned 64-bit index type becomes `ℕ`
(all indices handled stay far below 2^64, so no wrap-around occurs in
the modelled runs).
-/

namespace DAT

/-! ## Index algebra (utilities.h) -/

/-- Function `pow2` from utilities.h: `(1ULL << p)`. -/
def pow2 (p : ℕ) : ℕ := 1 <<< p

/-- Function `flipBit` from utilities.h: `num ^ pow2(i)`. -/
def flipBit (num : ℕ) (i : ℕ) : ℕ := num ^^^ pow2 i

/-- Function `getBit` from utilities.h: `(num >> i) & 1`. -/
def getBit (num : ℕ) (i : ℕ) : ℕ := (num >>> i) &&& 1

/-- Function `insertZeroBit` from utilities.h:
`l = (num >> i) << i; r = num - l; return (l << 1) ^ r`. -/
def insertZeroBit (num : ℕ) (i : ℕ) : ℕ :=
  let l := (num >>> i) <<< i
  let r := num - l
  (l <<< 1) ^^^ r

/-- Function `getBitMask` from utilities.h: starts from mask 0 and flips every
listed bit position in turn. -/
def getBitMask (bits : List ℕ) : ℕ := bits.foldl flipBit 0

/-- Function `truncateBits` from utilities.h: `num & (pow2(numLowerBits) - 1)`. -/
def truncateBits (num : ℕ) (numLowerBits : ℕ) : ℕ := num &&& (pow2 numLowerBits - 1)

/-- Function `bitsAreAllOne` from utilities.h: `(mask & i) == mask`. -/
def bitsAreAllOne (i : ℕ) (mask : ℕ) : Bool := mask &&& i == mask

/-- Function `getZeroBitFromAffix` from utilities.h: `(prefix << (i+1)) | suffix`. -/
def getZeroBitFromAffix (pre suf : ℕ) (i : ℕ) : ℕ := (pre <<< (i + 1)) ||| suf

/-! ### Arithmetic bridges for the bit primitives -/

theorem pow2_eq (p : ℕ) : pow2 p = 2 ^ p := by
  simp [pow2, Nat.shiftLeft_eq]

theorem pow2_pos (p : ℕ) : 0 < pow2 p := by
  rw [pow2_eq]; exact Nat.pos_pow_of_pos p (by norm_num)

theorem getBit_eq (num i : ℕ) : getBit num i = num / 2 ^ i % 2 := by
  simp [getBit, Nat.shiftRight_eq_div_pow, Nat.and_one_is_mod]

theorem getBit_lt_two (num i : ℕ) : getBit num i < 2 := by
  rw [getBit_eq]; exact Nat.mod_lt _ (by norm_num)

/-- Bits of `2^i * a + b` at positions below `i` come from `b`. -/
theorem testBit_mul_add_low {i b : ℕ} (a : ℕ) {j : ℕ} (hj : j < i) :
    Nat.testBit (2 ^ i * a + b) j = Nat.testBit b j := by
  rw [Nat.testBit_to_div_mod, Nat.testBit_to_div_mod]
  have e1 : 2 ^ i * a = 2 ^ j * (2 ^ (i - j) * a) := by
    rw [← mul_assoc, ← pow_add]
    congr 2
    omega
  have e2 : (2 ^ i * a + b) / 2 ^ j = 2 ^ (i - j) * a + b / 2 ^ j := by
    rw [e1, Nat.mul_add_div (Nat.pos_pow_of_pos j (by norm_num))]
  have e3 : 2 ^ (i - j) * a = 2 * (2 ^ (i - j - 1) * a) := by
    have e4 : 2 ^ (i - j) = 2 * 2 ^ (i - j - 1) := by
      rw [← pow_succ']
      congr 1
      omega
    rw [e4, mul_assoc]
  rw [e2, e3, Nat.mul_add_mod]

/-- Bits of `2^i * a + b` at positions `≥ i` come from `a`, when `b < 2^i`. -/
theorem testBit_mul_add_high {i b : ℕ} (a : ℕ) {j : ℕ} (hb : b < 2 ^ i) (hj : i ≤ j) :
    Nat.testBit (2 ^ i * a + b) j = Nat.testBit a (j - i) := by
  rw [Nat.testBit_to_div_mod, Nat.testBit_to_div_mod]
  have hi : 2 ^ j = 2 ^ i * 2 ^ (j - i) := by
    rw [← pow_add]; congr 1; omega
  have h1 : (2 ^ i * a + b) / 2 ^ i = a := by
    rw [Nat.mul_add_div (Nat.pos_pow_of_pos i (by norm_num))]
    simp [Nat.div_eq_of_lt hb]
  rw [hi, ← Nat.div_div_eq_div_mul, h1]

/-- XOR with a disjoint low part is addition: `(2^i * a) ^^^ b = 2^i * a + b`
when `b < 2^i`. -/
theorem xor_eq_add_of_lt {i a b : ℕ} (hb : b < 2 ^ i) :
    (2 ^ i * a) ^^^ b = 2 ^ i * a + b := by
  apply Nat.eq_of_testBit_eq
  intro j
  rcases Nat.lt_or_ge j i with hj | hj
  · have h0 : Nat.testBit (2 ^ i * a) j = false := by
      have := testBit_mul_add_low (i := i) (b := 0) a hj
      simpa using this
    rw [Nat.testBit_xor, h0, testBit_mul_add_low a hj]
    simp
  · have hbf : Nat.testBit b j = false :=
      Nat.testBit_lt_two_pow (lt_of_lt_of_le hb (Nat.pow_le_pow_right (by norm_num) hj))
    have h0 : Nat.testBit (2 ^ i * a) j = Nat.testBit a (j - i) := by
      have := testBit_mul_add_high (i := i) (b := 0) a (Nat.pos_pow_of_pos i (by norm_num)) hj
      simpa using this
    rw [Nat.testBit_xor, h0, hbf, testBit_mul_add_high a hb hj]
    simp

/-- OR with a disjoint low part is addition: `(2^i * a) ||| b = 2^i * a + b`
when `b < 2^i`. -/
theorem lor_eq_add_of_lt {i a b : ℕ} (hb : b < 2 ^ i) :
    (2 ^ i * a) ||| b = 2 ^ i * a + b := by
  apply Nat.eq_of_testBit_eq
  intro j
  rcases Nat.lt_or_ge j i with hj | hj
  · have h0 : Nat.testBit (2 ^ i * a) j = false := by
      have := testBit_mul_add_low (i := i) (b := 0) a hj
      simpa using this
    rw [Nat.testBit_lor, h0, testBit_mul_add_low a hj]
    simp
  · have hbf : Nat.testBit b j = false :=
      Nat.testBit_lt_two_pow (lt_of_lt_of_le hb (Nat.pow_le_pow_right (by norm_num) hj))
    have h0 : Nat.testBit (2 ^ i * a) j = Nat.testBit a (j - i) := by
      have := testBit_mul_add_high (i := i) (b := 0) a (Nat.pos_pow_of_pos i (by norm_num)) hj
      simpa using this
    rw [Nat.testBit_lor, h0, hbf, testBit_mul_add_high a hb hj]
    simp

/-- Arithmetic form of `insertZeroBit`. -/
theorem insertZeroBit_eq (num i : ℕ) :
    insertZeroBit num i = 2 ^ (i + 1) * (num / 2 ^ i) + num % 2 ^ i := by
  unfold insertZeroBit
  simp only [Nat.shiftRight_eq_div_pow, Nat.shiftLeft_eq]
  have hl : num / 2 ^ i * 2 ^ i * 2 ^ 1 = 2 ^ (i + 1) * (num / 2 ^ i) := by ring
  have hr : num - num / 2 ^ i * 2 ^ i = num % 2 ^ i := by
    have h := Nat.div_add_mod num (2 ^ i)
    have h2 : num / 2 ^ i * 2 ^ i = 2 ^ i * (num / 2 ^ i) := mul_comm _ _
    omega
  rw [hl, hr]
  exact xor_eq_add_of_lt (lt_of_lt_of_le (Nat.mod_lt _ (Nat.pos_pow_of_pos i (by norm_num)))
    (Nat.pow_le_pow_right (by norm_num) (Nat.le_succ i)))

/-- Arithmetic form of the insert-then-flip map used by methods D:
it re-inserts a 1 bit at position `i`. -/
theorem flipBit_insertZeroBit_eq (num i : ℕ) :
    flipBit (insertZeroBit num i) i = 2 ^ (i + 1) * (num / 2 ^ i) + 2 ^ i + num % 2 ^ i := by
  have hmod : num % 2 ^ i < 2 ^ i := Nat.mod_lt _ (Nat.pos_pow_of_pos i (by norm_num))
  have hlt1 : num % 2 ^ i < 2 ^ (i + 1) :=
    lt_of_lt_of_le hmod (Nat.pow_le_pow_right (by norm_num) (Nat.le_succ i))
  rw [flipBit, insertZeroBit_eq, pow2_eq, ← xor_eq_add_of_lt hlt1, Nat.xor_assoc]
  have h2 : num % 2 ^ i ^^^ 2 ^ i = 2 ^ i + num % 2 ^ i := by
    rw [Nat.xor_comm]
    have h3 := xor_eq_add_of_lt (i := i) (a := 1) (b := num % 2 ^ i) hmod
    simpa using h3
  rw [h2]
  have h4 : 2 ^ i + num % 2 ^ i < 2 ^ (i + 1) := by
    have h5 : 2 ^ (i + 1) = 2 ^ i + 2 ^ i := by ring
    omega
  rw [xor_eq_add_of_lt h4]
  omega

/-- Arithmetic form of `getZeroBitFromAffix` for an in-range suffix. -/
theorem getZeroBitFromAffix_eq {pre suf i : ℕ} (hs : suf < 2 ^ (i + 1)) :
    getZeroBitFromAffix pre suf i = 2 ^ (i + 1) * pre + suf := by
  rw [getZeroBitFromAffix, Nat.shiftLeft_eq, mul_comm]
  exact lor_eq_add_of_lt hs

/-! ### Unique decomposition of a flat index around one bit position

Every flat index splits uniquely as `j * 2^(t+1) + b * 2^t + l` with
`b < 2`, `l < 2^t` (the affix model of the spec). -/

theorem two_level_proj {K : ℕ} (hK : 0 < K) (j b l : ℕ) (hb : b < 2) (hl : l < K) :
    (j * (2 * K) + b * K + l) / (2 * K) = j
      ∧ (j * (2 * K) + b * K + l) / K % 2 = b
      ∧ (j * (2 * K) + b * K + l) % K = l := by
  have hbK : b * K + l < 2 * K := by
    have hb1 : b ≤ 1 := by omega
    have h4 : b * K ≤ 1 * K := Nat.mul_le_mul_right K hb1
    omega
  refine ⟨?_, ?_, ?_⟩
  · have e : j * (2 * K) + b * K + l = 2 * K * j + (b * K + l) := by ring
    rw [e, Nat.mul_add_div (by omega)]
    have h5 : (b * K + l) / (2 * K) = 0 := Nat.div_eq_of_lt hbK
    omega
  · have e : j * (2 * K) + b * K + l = K * (2 * j + b) + l := by ring
    rw [e, Nat.mul_add_div hK, Nat.div_eq_of_lt hl]
    omega
  · have e : j * (2 * K) + b * K + l = K * (2 * j + b) + l := by ring
    rw [e, Nat.mul_add_mod, Nat.mod_eq_of_lt hl]

theorem two_level_decomp {K : ℕ} (hK : 0 < K) (p : ℕ) :
    p = p / (2 * K) * (2 * K) + p / K % 2 * K + p % K := by
  have h1 := Nat.div_add_mod p K
  have h2 := Nat.div_add_mod (p / K) 2
  have h3 : p / K / 2 = p / (2 * K) := by
    rw [Nat.div_div_eq_div_mul, mul_comm]
  rw [h3] at h2
  calc p = K * (p / K) + p % K := h1.symm
    _ = K * (2 * (p / (2 * K)) + p / K % 2) + p % K := by rw [h2]
    _ = p / (2 * K) * (2 * K) + p / K % 2 * K + p % K := by ring

theorem pow_succ_two (t : ℕ) : 2 ^ (t + 1) = 2 * 2 ^ t := by
  rw [pow_succ]; ring

/-- Projections of `j * 2^(t+1) + b * 2^t + l`. -/
theorem dproj {t : ℕ} (j b l : ℕ) (hb : b < 2) (hl : l < 2 ^ t) :
    (j * 2 ^ (t + 1) + b * 2 ^ t + l) / 2 ^ (t + 1) = j
      ∧ (j * 2 ^ (t + 1) + b * 2 ^ t + l) / 2 ^ t % 2 = b
      ∧ (j * 2 ^ (t + 1) + b * 2 ^ t + l) % 2 ^ t = l := by
  rw [pow_succ_two]
  exact two_level_proj (Nat.pos_pow_of_pos t (by norm_num)) j b l hb hl

/-- Existence half: every index decomposes around bit `t`. -/
theorem ddecomp (t p : ℕ) :
    p = p / 2 ^ (t + 1) * 2 ^ (t + 1) + p / 2 ^ t % 2 * 2 ^ t + p % 2 ^ t := by
  rw [pow_succ_two]
  exact two_level_decomp (Nat.pos_pow_of_pos t (by norm_num)) p

/-- Injectivity of the two-level decomposition. -/
theorem dinj {t : ℕ} {j b l j' b' l' : ℕ} (hb : b < 2) (hl : l < 2 ^ t)
    (hb' : b' < 2) (hl' : l' < 2 ^ t)
    (h : j * 2 ^ (t + 1) + b * 2 ^ t + l = j' * 2 ^ (t + 1) + b' * 2 ^ t + l') :
    j = j' ∧ b = b' ∧ l = l' := by
  obtain ⟨p1, p2, p3⟩ := dproj j b l hb hl
  obtain ⟨q1, q2, q3⟩ := dproj j' b' l' hb' hl'
  rw [h] at p1 p2 p3
  exact ⟨p1.symm.trans q1, p2.symm.trans q2, p3.symm.trans q3⟩

/-- Range bound for the reconstruction around bit `t < N`. -/
theorem dlt {t N : ℕ} (htN : t < N) {j b l : ℕ}
    (hj : j < 2 ^ (N - (t + 1))) (hb : b < 2) (hl : l < 2 ^ t) :
    j * 2 ^ (t + 1) + b * 2 ^ t + l < 2 ^ N := by
  have hpow : 2 ^ (N - (t + 1)) * 2 ^ (t + 1) = 2 ^ N := by
    rw [← pow_add]; congr 1; omega
  have h2 : (j + 1) * 2 ^ (t + 1) ≤ 2 ^ N := by
    calc (j + 1) * 2 ^ (t + 1) ≤ 2 ^ (N - (t + 1)) * 2 ^ (t + 1) :=
          Nat.mul_le_mul_right _ hj
      _ = 2 ^ N := hpow
  have h3 : b * 2 ^ t + l < 2 ^ (t + 1) := by
    have hb1 : b ≤ 1 := by omega
    have h4 : b * 2 ^ t ≤ 1 * 2 ^ t := Nat.mul_le_mul_right _ hb1
    have h5 := pow_succ_two t
    omega
  have h6 : (j + 1) * 2 ^ (t + 1) = j * 2 ^ (t + 1) + 2 ^ (t + 1) := by ring
  omega

/-- The prefix slot of an in-range index is in range. -/
theorem dj_lt {t N : ℕ} (htN : t < N) {p : ℕ} (hp : p < 2 ^ N) :
    p / 2 ^ (t + 1) < 2 ^ (N - (t + 1)) := by
  rw [Nat.div_lt_iff_lt_mul (Nat.pos_pow_of_pos (t + 1) (by norm_num))]
  calc p < 2 ^ N := hp
    _ = 2 ^ (N - (t + 1)) * 2 ^ (t + 1) := by rw [← pow_add]; congr 1; omega

/-! ### Unique decomposition around two bit positions `t1 < t2` -/

/-- Regrouping of the three-segment reconstruction as nested two-level ones. -/
theorem triple_eq_nest {t1 t2 : ℕ} (h12 : t1 < t2) (j b2 k b1 l : ℕ) :
    j * 2 ^ (t2 + 1) + b2 * 2 ^ t2 + k * 2 ^ (t1 + 1) + b1 * 2 ^ t1 + l
      = (j * 2 ^ (t2 - t1) + b2 * 2 ^ (t2 - t1 - 1) + k) * 2 ^ (t1 + 1)
          + b1 * 2 ^ t1 + l := by
  have e1 : 2 ^ t2 = 2 ^ (t2 - t1 - 1) * 2 ^ (t1 + 1) := by
    rw [← pow_add]; congr 1; omega
  have e2 : 2 ^ (t2 + 1) = 2 ^ (t2 - t1) * 2 ^ (t1 + 1) := by
    rw [← pow_add]; congr 1; omega
  rw [e1, e2]
  ring

theorem pow_sub_split {t1 t2 : ℕ} (h12 : t1 < t2) :
    2 ^ (t2 - t1) = 2 * 2 ^ (t2 - t1 - 1) := by
  rw [← pow_succ_two]
  congr 1
  omega

theorem pow_mul_pow_eq (a b c : ℕ) (h : a + b = c) : 2 ^ a * 2 ^ b = 2 ^ c := by
  rw [← pow_add, h]

/-- Projections of the three-segment reconstruction. -/
theorem tproj {t1 t2 : ℕ} (h12 : t1 < t2) (j b2 k b1 l : ℕ)
    (hb2 : b2 < 2) (hk : k < 2 ^ (t2 - t1 - 1)) (hb1 : b1 < 2) (hl : l < 2 ^ t1) :
    (j * 2 ^ (t2 + 1) + b2 * 2 ^ t2 + k * 2 ^ (t1 + 1) + b1 * 2 ^ t1 + l) / 2 ^ (t2 + 1) = j
      ∧ (j * 2 ^ (t2 + 1) + b2 * 2 ^ t2 + k * 2 ^ (t1 + 1) + b1 * 2 ^ t1 + l)
          / 2 ^ t2 % 2 = b2
      ∧ (j * 2 ^ (t2 + 1) + b2 * 2 ^ t2 + k * 2 ^ (t1 + 1) + b1 * 2 ^ t1 + l)
          / 2 ^ (t1 + 1) % 2 ^ (t2 - t1 - 1) = k
      ∧ (j * 2 ^ (t2 + 1) + b2 * 2 ^ t2 + k * 2 ^ (t1 + 1) + b1 * 2 ^ t1 + l)
          / 2 ^ t1 % 2 = b1
      ∧ (j * 2 ^ (t2 + 1) + b2 * 2 ^ t2 + k * 2 ^ (t1 + 1) + b1 * 2 ^ t1 + l) % 2 ^ t1 = l := by
  have hM : 0 < 2 ^ (t2 - t1 - 1) := Nat.pos_pow_of_pos _ (by norm_num)
  obtain ⟨o1, o2, o3⟩ := two_level_proj hM j b2 k hb2 hk
  rw [← pow_sub_split h12] at o1 o2 o3
  obtain ⟨i1, i2, i3⟩ := dproj
    (j * 2 ^ (t2 - t1) + b2 * 2 ^ (t2 - t1 - 1) + k) b1 l hb1 hl
  rw [triple_eq_nest h12]
  have hd1 : 2 ^ (t1 + 1) * 2 ^ (t2 - t1) = 2 ^ (t2 + 1) :=
    pow_mul_pow_eq _ _ _ (by omega)
  have hd2 : 2 ^ (t1 + 1) * 2 ^ (t2 - t1 - 1) = 2 ^ t2 :=
    pow_mul_pow_eq _ _ _ (by omega)
  refine ⟨?_, ?_, ?_, ?_, ?_⟩
  · rw [← hd1, ← Nat.div_div_eq_div_mul, i1, o1]
  · rw [← hd2, ← Nat.div_div_eq_div_mul, i1, o2]
  · rw [i1, o3]
  · exact i2
  · exact i3

/-- Existence half of the three-segment decomposition. -/
theorem tdecomp {t1 t2 : ℕ} (h12 : t1 < t2) (p : ℕ) :
    p = p / 2 ^ (t2 + 1) * 2 ^ (t2 + 1) + p / 2 ^ t2 % 2 * 2 ^ t2
        + p / 2 ^ (t1 + 1) % 2 ^ (t2 - t1 - 1) * 2 ^ (t1 + 1)
        + p / 2 ^ t1 % 2 * 2 ^ t1 + p % 2 ^ t1 := by
  have hM : 0 < 2 ^ (t2 - t1 - 1) := Nat.pos_pow_of_pos _ (by norm_num)
  have hd1 : 2 ^ (t1 + 1) * 2 ^ (t2 - t1) = 2 ^ (t2 + 1) :=
    pow_mul_pow_eq _ _ _ (by omega)
  have hd2 : 2 ^ (t1 + 1) * 2 ^ (t2 - t1 - 1) = 2 ^ t2 :=
    pow_mul_pow_eq _ _ _ (by omega)
  have h0 := ddecomp t1 p
  have hH := two_level_decomp hM (p / 2 ^ (t1 + 1))
  rw [← pow_sub_split h12] at hH
  have h1 : p / 2 ^ (t1 + 1) / 2 ^ (t2 - t1) = p / 2 ^ (t2 + 1) := by
    rw [Nat.div_div_eq_div_mul, hd1]
  have h2 : p / 2 ^ (t1 + 1) / 2 ^ (t2 - t1 - 1) = p / 2 ^ t2 := by
    rw [Nat.div_div_eq_div_mul, hd2]
  rw [h1, h2] at hH
  calc p = p / 2 ^ (t1 + 1) * 2 ^ (t1 + 1) + p / 2 ^ t1 % 2 * 2 ^ t1 + p % 2 ^ t1 := h0
    _ = (p / 2 ^ (t2 + 1) * 2 ^ (t2 - t1) + p / 2 ^ t2 % 2 * 2 ^ (t2 - t1 - 1)
          + p / 2 ^ (t1 + 1) % 2 ^ (t2 - t1 - 1)) * 2 ^ (t1 + 1)
          + p / 2 ^ t1 % 2 * 2 ^ t1 + p % 2 ^ t1 := by rw [← hH]
    _ = p / 2 ^ (t2 + 1) * 2 ^ (t2 + 1) + p / 2 ^ t2 % 2 * 2 ^ t2
          + p / 2 ^ (t1 + 1) % 2 ^ (t2 - t1 - 1) * 2 ^ (t1 + 1)
          + p / 2 ^ t1 % 2 * 2 ^ t1 + p % 2 ^ t1 :=
        (triple_eq_nest h12 (p / 2 ^ (t2 + 1)) (p / 2 ^ t2 % 2)
          (p / 2 ^ (t1 + 1) % 2 ^ (t2 - t1 - 1)) (p / 2 ^ t1 % 2) (p % 2 ^ t1)).symm

/-- Injectivity of the three-segment reconstruction. -/
theorem tinj {t1 t2 : ℕ} (h12 : t1 < t2) {j b2 k b1 l j' b2' k' b1' l' : ℕ}
    (hb2 : b2 < 2) (hk : k < 2 ^ (t2 - t1 - 1)) (hb1 : b1 < 2) (hl : l < 2 ^ t1)
    (hb2' : b2' < 2) (hk' : k' < 2 ^ (t2 - t1 - 1)) (hb1' : b1' < 2) (hl' : l' < 2 ^ t1)
    (h : j * 2 ^ (t2 + 1) + b2 * 2 ^ t2 + k * 2 ^ (t1 + 1) + b1 * 2 ^ t1 + l
        = j' * 2 ^ (t2 + 1) + b2' * 2 ^ t2 + k' * 2 ^ (t1 + 1) + b1' * 2 ^ t1 + l') :
    j = j' ∧ b2 = b2' ∧ k = k' ∧ b1 = b1' ∧ l = l' := by
  obtain ⟨p1, p2, p3, p4, p5⟩ := tproj h12 j b2 k b1 l hb2 hk hb1 hl
  obtain ⟨q1, q2, q3, q4, q5⟩ := tproj h12 j' b2' k' b1' l' hb2' hk' hb1' hl'
  rw [h] at p1 p2 p3 p4 p5
  exact ⟨p1.symm.trans q1, p2.symm.trans q2, p3.symm.trans q3,
    p4.symm.trans q4, p5.symm.trans q5⟩

/-- Range bound for the three-segment reconstruction. -/
theorem tlt {t1 t2 N : ℕ} (h12 : t1 < t2) (h2N : t2 < N) {j b2 k b1 l : ℕ}
    (hj : j < 2 ^ (N - (t2 + 1))) (hb2 : b2 < 2) (hk : k < 2 ^ (t2 - t1 - 1))
    (hb1 : b1 < 2) (hl : l < 2 ^ t1) :
    j * 2 ^ (t2 + 1) + b2 * 2 ^ t2 + k * 2 ^ (t1 + 1) + b1 * 2 ^ t1 + l < 2 ^ N := by
  rw [triple_eq_nest h12]
  have h1N : t1 < N := lt_trans h12 h2N
  apply dlt h1N _ hb1 hl
  have e1 : 2 ^ (N - (t1 + 1)) = 2 ^ (t2 - t1) * 2 ^ (N - (t2 + 1)) := by
    rw [← pow_add]; congr 1; omega
  have e2 := pow_sub_split h12
  have h4 : j * 2 ^ (t2 - t1) ≤ (2 ^ (N - (t2 + 1)) - 1) * 2 ^ (t2 - t1) :=
    Nat.mul_le_mul_right _ (by omega)
  have h5 : (2 ^ (N - (t2 + 1)) - 1) * 2 ^ (t2 - t1) + 2 ^ (t2 - t1)
      = 2 ^ (t2 - t1) * 2 ^ (N - (t2 + 1)) := by
    have h6 : 0 < 2 ^ (N - (t2 + 1)) := Nat.pos_pow_of_pos _ (by norm_num)
    have h7 : 2 ^ (N - (t2 + 1)) - 1 + 1 = 2 ^ (N - (t2 + 1)) := by omega
    calc (2 ^ (N - (t2 + 1)) - 1) * 2 ^ (t2 - t1) + 2 ^ (t2 - t1)
        = (2 ^ (N - (t2 + 1)) - 1 + 1) * 2 ^ (t2 - t1) := by ring
      _ = 2 ^ (N - (t2 + 1)) * 2 ^ (t2 - t1) := by rw [h7]
      _ = 2 ^ (t2 - t1) * 2 ^ (N - (t2 + 1)) := by ring
  have h8 : b2 * 2 ^ (t2 - t1 - 1) + k < 2 ^ (t2 - t1) := by
    have hb1' : b2 ≤ 1 := by omega
    have h9 : b2 * 2 ^ (t2 - t1 - 1) ≤ 1 * 2 ^ (t2 - t1 - 1) := Nat.mul_le_mul_right _ hb1'
    omega
  rw [e1]
  omega

/-! ## Loop machinery

C `for` loops become folds over `List.range`; the body of a nested loop
pair/triple is re-indexed by a product list so that a single
disjoint-writes argument applies to every kernel. -/

/-- A C loop `for (i = 0; i < n; i++) body` acting on state `a`. -/
def forLoop {α : Type} (n : ℕ) (body : α → ℕ → α) (a : α) : α :=
  (List.range n).foldl body a

/-- All ordered pairs of two index lists, outer list first. -/
def prodL {γ δ : Type} : List γ → List δ → List (γ × δ)
  | [], _ => []
  | x :: t, L2 => (L2.map (fun y => (x, y))) ++ prodL t L2

theorem mem_prodL {γ δ : Type} {L1 : List γ} {L2 : List δ} {q : γ × δ} :
    q ∈ prodL L1 L2 ↔ q.1 ∈ L1 ∧ q.2 ∈ L2 := by
  induction L1 with
  | nil => simp [prodL]
  | cons x t ih =>
    cases q with
    | mk a b =>
      simp only [prodL, List.mem_append, List.mem_map, List.mem_cons, ih]
      constructor
      · rintro (⟨y, hy, he⟩ | ⟨h1, h2⟩)
        · cases he
          exact ⟨Or.inl rfl, hy⟩
        · exact ⟨Or.inr h1, h2⟩
      · rintro ⟨h1 | h1, h2⟩
        · exact Or.inl ⟨b, h2, by rw [h1]⟩
        · exact Or.inr ⟨h1, h2⟩

theorem nodup_prodL {γ δ : Type} {L1 : List γ} {L2 : List δ}
    (h1 : L1.Nodup) (h2 : L2.Nodup) : (prodL L1 L2).Nodup := by
  induction L1 with
  | nil => simp [prodL]
  | cons x t ih =>
    rw [List.nodup_cons] at h1
    refine List.Nodup.append ?_ (ih h1.2) ?_
    · exact h2.map (fun a b hab => by simpa using congrArg Prod.snd hab)
    · intro q hq hq2
      rw [List.mem_map] at hq
      obtain ⟨y, _, he⟩ := hq
      rw [mem_prodL] at hq2
      apply h1.1
      have : q.1 = x := by rw [← he]
      rw [← this]
      exact hq2.1

theorem foldl_prodL {α γ δ : Type} (g : α → γ × δ → α) (L1 : List γ) (L2 : List δ) (a : α) :
    (prodL L1 L2).foldl g a
      = L1.foldl (fun b x => L2.foldl (fun c y => g c (x, y)) b) a := by
  induction L1 generalizing a with
  | nil => rfl
  | cons x t ih =>
    simp only [prodL, List.foldl_append, List.foldl_cons, List.foldl_map]
    rw [ih]

/-- Rewriting `forLoop` over a two-level nest, re-indexed by pairs. -/
theorem forLoop_two {α : Type} (n1 n2 : ℕ) (g : α → ℕ → ℕ → α) (a : α) :
    forLoop n1 (fun b j => forLoop n2 (fun c k => g c j k) b) a
      = (prodL (List.range n1) (List.range n2)).foldl (fun b q => g b q.1 q.2) a := by
  rw [foldl_prodL]
  rfl

/-- Rewriting `forLoop` over a three-level nest, re-indexed by nested pairs. -/
theorem forLoop_three {α : Type} (n1 n2 n3 : ℕ) (g : α → ℕ → ℕ → ℕ → α) (a : α) :
    forLoop n1 (fun b j => forLoop n2 (fun c k => forLoop n3 (fun d l => g d j k l) c) b) a
      = (prodL (prodL (List.range n1) (List.range n2)) (List.range n3)).foldl
          (fun b q => g b q.1.1 q.1.2 q.2) a := by
  rw [foldl_prodL, foldl_prodL]
  rfl

/-! ### Disjoint-write loops act pointwise

`S m q` reads: iteration `m` may write array cell `q`. -/

/-- A fold whose iterations never write cell `p` leaves cell `p` alone. -/
theorem foldl_frame {β ι : Type} (step : (ℕ → β) → ι → (ℕ → β)) (S : ι → ℕ → Prop)
    (hframe : ∀ b m q, ¬ S m q → step b m q = b q) :
    ∀ (L : List ι) (a : ℕ → β) (p : ℕ), (∀ m ∈ L, ¬ S m p) → L.foldl step a p = a p := by
  intro L
  induction L with
  | nil => intro a p _; rfl
  | cons m t ih =>
    intro a p hp
    rw [List.foldl_cons, ih (step a m) p (fun m' hm' => hp m' (List.mem_cons_of_mem m hm'))]
    exact hframe a m p (hp m (List.mem_cons_self m t))

/-- In a fold whose iterations write pairwise-disjoint cell sets, reading
only cells they write, the final value of a cell written by iteration `m`
is what iteration `m` alone would have produced from the initial state. -/
theorem foldl_write {β ι : Type} (step : (ℕ → β) → ι → (ℕ → β)) (S : ι → ℕ → Prop)
    (hframe : ∀ b m q, ¬ S m q → step b m q = b q)
    (hlocal : ∀ b c m, (∀ q, S m q → b q = c q) → ∀ q, S m q → step b m q = step c m q) :
    ∀ (L : List ι), L.Pairwise (fun m1 m2 => ∀ q, S m1 q → ¬ S m2 q) →
      ∀ (a : ℕ → β) (m : ι) (p : ℕ), m ∈ L → S m p → L.foldl step a p = step a m p := by
  intro L
  induction L with
  | nil => intro _ a m p hm; cases hm
  | cons m0 t ih =>
    intro hpw a m p hm hp
    obtain ⟨hd, htl⟩ := List.pairwise_cons.mp hpw
    rw [List.foldl_cons]
    rcases List.mem_cons.mp hm with he | hme
    · subst he
      rw [foldl_frame step S hframe t (step a m) p (fun m' hm' => hd m' hm' p hp)]
    · rw [ih htl (step a m0) m p hme hp]
      refine hlocal _ _ _ ?_ _ hp
      intro q hq
      apply hframe
      intro hq0
      exact hd m hme q hq0 hq

/-! ## local_controls.c : the controlled-update strategies

The file works on real arrays (`double*`), embedded as `ℕ → ℝ`.
The stand-in amplitude transform is the macro
`#define f(amp) (1.5 * pow(amp - .1, 2))`. -/

/-- The stand-in per-amplitude transform `f`. -/
def f (amp : ℝ) : ℝ := 1.5 * (amp - 0.1) ^ 2

/-- Strategy `s_methodA`: branch-test over every index. -/
def s_methodA (amps : ℕ → ℝ) (numAmps : ℕ) (c : ℕ) : ℕ → ℝ :=
  forLoop numAmps (fun a i =>
    if getBit i c ≠ 0 then Function.update a i (f (a i)) else a) amps

/-- Strategy `s_methodB`: branchless blend over every index. -/
def s_methodB (amps : ℕ → ℝ) (numAmps : ℕ) (c : ℕ) : ℕ → ℝ :=
  forLoop numAmps (fun a i =>
    let b := getBit i c
    Function.update a i ((1 - (b : ℝ)) * a i + (b : ℝ) * f (a i))) amps

/-- Strategy `s_methodC`, first variant (local_controls.c lines 57-66):
`i = m + l * l3 + l2` with `l2 = 1 << c`, `l3 = l2 << 1`. -/
def s_methodC (amps : ℕ → ℝ) (numAmps : ℕ) (c : ℕ) : ℕ → ℝ :=
  let l1 := numAmps >>> (c + 1)
  let l2 : ℕ := 1 <<< c
  let l3 := l2 <<< 1
  forLoop l1 (fun a l => forLoop l2 (fun a2 m =>
    let i := m + l * l3 + l2
    Function.update a2 i (f (a2 i))) a) amps

/-- Strategy `s_methodC`, affix variant (second copy of local_controls.c and
src/unnamed/part_001 lines 68-80).  Note the body reads `amps[i]`, the
inner counter, not `amps[j1i]`. -/
def s_methodC_affix (amps : ℕ → ℝ) (numAmps : ℕ) (c : ℕ) : ℕ → ℝ :=
  let jNum := numAmps >>> (c + 1)
  let iNum := pow2 c
  forLoop jNum (fun a j => forLoop iNum (fun a2 i =>
    let j0i := getZeroBitFromAffix j i c
    let j1i := flipBit j0i c
    Function.update a2 j1i (f (a2 i))) a) amps

/-- Strategy `s_methodD`: bit-insertion enumeration. -/
def s_methodD (amps : ℕ → ℝ) (numAmps : ℕ) (c : ℕ) : ℕ → ℝ :=
  let l1 := numAmps >>> 1
  forLoop l1 (fun a m =>
    let i := flipBit (insertZeroBit m c) c
    Function.update a i (f (a i))) amps

/-- Strategy `m_methodA`: branch-test against the control mask. -/
def m_methodA (amps : ℕ → ℝ) (numAmps : ℕ) (ctrls : List ℕ) : ℕ → ℝ :=
  let cMask := getBitMask ctrls
  forLoop numAmps (fun a i =>
    if bitsAreAllOne i cMask = true then Function.update a i (f (a i)) else a) amps

/-- Strategy `m_methodB`: branchless blend against the control mask. -/
def m_methodB (amps : ℕ → ℝ) (numAmps : ℕ) (ctrls : List ℕ) : ℕ → ℝ :=
  let cMask := getBitMask ctrls
  forLoop numAmps (fun a i =>
    let b : ℝ := if bitsAreAllOne i cMask = true then 1 else 0
    Function.update a i ((1 - b) * a i + b * f (a i))) amps

/-- Strategy `m_methodD`: iterated bit-insertion over the reduced index space. -/
def m_methodD (amps : ℕ → ℝ) (numAmps : ℕ) (ctrls : List ℕ) : ℕ → ℝ :=
  let l1 := numAmps >>> ctrls.length
  forLoop l1 (fun a l =>
    let j := ctrls.foldl (fun j c => flipBit (insertZeroBit j c) c) l
    Function.update a j (f (a j))) amps

/-! ### The control mask -/

theorem foldl_flipBit_testBit (L : List ℕ) (hnd : L.Nodup) (acc b : ℕ) :
    Nat.testBit (L.foldl flipBit acc) b = xor (Nat.testBit acc b) (decide (b ∈ L)) := by
  induction L generalizing acc with
  | nil => simp
  | cons c t ih =>
    rw [List.nodup_cons] at hnd
    rw [List.foldl_cons, ih hnd.2]
    have h1 : Nat.testBit (flipBit acc c) b = xor (Nat.testBit acc b) (decide (c = b)) := by
      rw [flipBit, pow2_eq, Nat.testBit_xor, Nat.testBit_two_pow]
    rw [h1]
    by_cases hbc : b = c
    · subst hbc
      have hbt : b ∉ t := hnd.1
      simp [hbt]
    · have hcb : ¬ (c = b) := fun h => hbc h.symm
      simp [hbc, hcb, List.mem_cons]

theorem getBitMask_testBit (ctrls : List ℕ) (hnd : ctrls.Nodup) (b : ℕ) :
    Nat.testBit (getBitMask ctrls) b = decide (b ∈ ctrls) := by
  rw [getBitMask, foldl_flipBit_testBit ctrls hnd 0 b]
  simp

/-- The test `bitsAreAllOne i mask` holds exactly when every control bit of `i` is 1. -/
theorem bitsAreAllOne_iff {p : ℕ} {ctrls : List ℕ} (hnd : ctrls.Nodup) :
    bitsAreAllOne p (getBitMask ctrls) = true ↔ ∀ c ∈ ctrls, p / 2 ^ c % 2 = 1 := by
  rw [bitsAreAllOne, beq_iff_eq]
  constructor
  · intro h c hc
    have h2 := congrArg (fun n => Nat.testBit n c) h
    simp only [Nat.testBit_and] at h2
    rw [getBitMask_testBit ctrls hnd c] at h2
    simp [hc] at h2
    rw [Nat.testBit_to_div_mod] at h2
    exact of_decide_eq_true h2
  · intro h
    apply Nat.eq_of_testBit_eq
    intro i
    rw [Nat.testBit_and, getBitMask_testBit ctrls hnd i]
    by_cases hi : i ∈ ctrls
    · have h4 : Nat.testBit p i = true := by
        rw [Nat.testBit_to_div_mod]
        exact decide_eq_true (h i hi)
      simp [hi, h4]
    · simp [hi]

/-! ### The insert-then-flip chain of m_methodD -/

/-- The index map iterated by methods D, written out for proofs. -/
def chainIF (l : ℕ) (ctrls : List ℕ) : ℕ :=
  ctrls.foldl (fun j c => flipBit (insertZeroBit j c) c) l

theorem chainIF_append (l : ℕ) (cs : List ℕ) (c : ℕ) :
    chainIF l (cs ++ [c]) = flipBit (insertZeroBit (chainIF l cs) c) c := by
  simp [chainIF, List.foldl_append]

/-- Bits below `e` in `2^e * q + r` are the bits of `r`. -/
theorem div_mod_two_mul_add {b e : ℕ} (q r : ℕ) (hbe : b < e) :
    (2 ^ e * q + r) / 2 ^ b % 2 = r / 2 ^ b % 2 := by
  have e1 : 2 ^ e * q = 2 ^ b * (2 ^ (e - b) * q) := by
    rw [← pow_mul_pow_eq b (e - b) e (by omega), mul_assoc]
  rw [e1, Nat.mul_add_div (Nat.pos_pow_of_pos b (by norm_num))]
  have e2 : 2 ^ (e - b) * q = 2 * (2 ^ (e - b - 1) * q) := by
    rw [show (2 : ℕ) ^ (e - b) = 2 * 2 ^ (e - b - 1) from by
      rw [← pow_succ_two]; congr 1; omega, mul_assoc]
  rw [e2, Nat.mul_add_mod]

/-- The insert-then-flip map sets bit `c`. -/
theorem insFlip_bit_self (x c : ℕ) :
    flipBit (insertZeroBit x c) c / 2 ^ c % 2 = 1 := by
  rw [flipBit_insertZeroBit_eq]
  have h := (dproj (x / 2 ^ c) 1 (x % 2 ^ c) (by norm_num)
    (Nat.mod_lt _ (Nat.pos_pow_of_pos c (by norm_num)))).2.1
  have e : x / 2 ^ c * 2 ^ (c + 1) + 1 * 2 ^ c + x % 2 ^ c
      = 2 ^ (c + 1) * (x / 2 ^ c) + 2 ^ c + x % 2 ^ c := by ring
  rw [e] at h
  exact h

/-- The insert-then-flip map preserves bits below `c`. -/
theorem insFlip_bit_low {b c : ℕ} (x : ℕ) (hb : b < c) :
    flipBit (insertZeroBit x c) c / 2 ^ b % 2 = x / 2 ^ b % 2 := by
  rw [flipBit_insertZeroBit_eq]
  have e : 2 ^ (c + 1) * (x / 2 ^ c) + 2 ^ c + x % 2 ^ c
      = 2 ^ (c + 1) * (x / 2 ^ c) + (2 ^ c * 1 + x % 2 ^ c) := by ring
  rw [e, div_mod_two_mul_add _ _ (by omega), div_mod_two_mul_add _ _ hb]
  have e2 : x = 2 ^ c * (x / 2 ^ c) + x % 2 ^ c := (Nat.div_add_mod x (2 ^ c)).symm
  conv_rhs => rw [e2]
  rw [div_mod_two_mul_add _ _ hb]

/-- The insert-then-flip map is strictly monotone, hence injective. -/
theorem insFlip_strictMono {c x y : ℕ} (h : x < y) :
    flipBit (insertZeroBit x c) c < flipBit (insertZeroBit y c) c := by
  rw [flipBit_insertZeroBit_eq, flipBit_insertZeroBit_eq]
  have hx := Nat.div_add_mod x (2 ^ c)
  have hy := Nat.div_add_mod y (2 ^ c)
  have hxm : x % 2 ^ c < 2 ^ c := Nat.mod_lt _ (Nat.pos_pow_of_pos c (by norm_num))
  have hym : y % 2 ^ c < 2 ^ c := Nat.mod_lt _ (Nat.pos_pow_of_pos c (by norm_num))
  have hdiv : x / 2 ^ c ≤ y / 2 ^ c := Nat.div_le_div_right (le_of_lt h)
  rcases eq_or_lt_of_le hdiv with heq | hlt
  · rw [← heq] at hy ⊢
    omega
  · have h1 : x / 2 ^ c + 1 ≤ y / 2 ^ c := hlt
    have h2 : 2 ^ (c + 1) * (x / 2 ^ c + 1) ≤ 2 ^ (c + 1) * (y / 2 ^ c) :=
      Nat.mul_le_mul_left _ h1
    have h3 : 2 ^ (c + 1) * (x / 2 ^ c + 1) = 2 ^ (c + 1) * (x / 2 ^ c) + 2 ^ (c + 1) := by
      ring
    have h4 := pow_succ_two c
    omega

/-- Range bound for a single insert-then-flip. -/
theorem insFlip_lt_pow {c M : ℕ} (hcM : c ≤ M) {x : ℕ} (hx : x < 2 ^ M) :
    flipBit (insertZeroBit x c) c < 2 ^ (M + 1) := by
  rw [flipBit_insertZeroBit_eq]
  have hq : x / 2 ^ c < 2 ^ ((M + 1) - (c + 1)) := by
    rw [Nat.div_lt_iff_lt_mul (Nat.pos_pow_of_pos c (by norm_num))]
    calc x < 2 ^ M := hx
      _ = 2 ^ ((M + 1) - (c + 1)) * 2 ^ c := (pow_mul_pow_eq _ _ _ (by omega)).symm
  have h := dlt (show c < M + 1 by omega) hq (show (1 : ℕ) < 2 by norm_num)
    (Nat.mod_lt x (Nat.pos_pow_of_pos c (by norm_num)))
  have e : x / 2 ^ c * 2 ^ (c + 1) + 1 * 2 ^ c + x % 2 ^ c
      = 2 ^ (c + 1) * (x / 2 ^ c) + 2 ^ c + x % 2 ^ c := by ring
  rw [e] at h
  exact h

theorem chainIF_strictMono (ctrls : List ℕ) : ∀ {x y : ℕ}, x < y →
    chainIF x ctrls < chainIF y ctrls := by
  induction ctrls with
  | nil => intro x y h; exact h
  | cons c t ih =>
    intro x y h
    have h1 : flipBit (insertZeroBit x c) c < flipBit (insertZeroBit y c) c :=
      insFlip_strictMono h
    simpa [chainIF, List.foldl_cons] using ih h1

/-- Strictly increasing control lists of qubits below `N` have at most `N`
elements. -/
theorem length_le_of_sorted_lt {ctrls : List ℕ} {N : ℕ}
    (hs : List.Sorted (· < ·) ctrls) (hc : ∀ c ∈ ctrls, c < N) :
    ctrls.length ≤ N := by
  have hnd : ctrls.Nodup := hs.nodup
  have h1 : ctrls.toFinset.card = ctrls.length := List.toFinset_card_of_nodup hnd
  have h2 : ctrls.toFinset ⊆ Finset.range N := by
    intro x hx
    rw [List.mem_toFinset] at hx
    rw [Finset.mem_range]
    exact hc x hx
  have h3 := Finset.card_le_card h2
  rw [Finset.card_range] at h3
  omega

/-- Range bound for the full chain. -/
theorem chainIF_lt (ctrls : List ℕ) : ∀ N : ℕ, List.Sorted (· < ·) ctrls →
    (∀ c ∈ ctrls, c < N) → ∀ l < 2 ^ (N - ctrls.length), chainIF l ctrls < 2 ^ N := by
  induction ctrls using List.reverseRecOn with
  | nil =>
    intro N _ _ l hl
    simpa [chainIF] using hl
  | append_singleton cs c ih =>
    intro N hs hc l hl
    have hsplit := List.pairwise_append.mp hs
    have hcs : List.Sorted (· < ·) cs := hsplit.1
    have hlt : ∀ x ∈ cs, x < c := by
      intro x hx
      exact hsplit.2.2 x hx c (List.mem_singleton_self c)
    have hcN : c < N := hc c (by simp)
    have hcs' : ∀ x ∈ cs, x < N - 1 := by
      intro x hx
      have := hlt x hx
      omega
    have hlen : (cs ++ [c]).length = cs.length + 1 := by simp
    have hl' : l < 2 ^ ((N - 1) - cs.length) := by
      have e : (N - 1) - cs.length = N - (cs ++ [c]).length := by
        rw [hlen]
        omega
      rw [e]
      exact hl
    have h1 : chainIF l cs < 2 ^ (N - 1) := ih (N - 1) hcs hcs' l hl'
    rw [chainIF_append]
    have h2 : flipBit (insertZeroBit (chainIF l cs) c) c < 2 ^ ((N - 1) + 1) :=
      insFlip_lt_pow (by omega) h1
    have e2 : (N - 1) + 1 = N := by omega
    rw [e2] at h2
    exact h2

/-- The chain of insert-then-flip steps over a strictly increasing control
list enumerates exactly the indices whose control bits are all 1. -/
theorem chainIF_image (ctrls : List ℕ) : ∀ N : ℕ, List.Sorted (· < ·) ctrls →
    (∀ c ∈ ctrls, c < N) → ∀ p < 2 ^ N,
      ((∀ c ∈ ctrls, p / 2 ^ c % 2 = 1) ↔
        ∃ l, l < 2 ^ (N - ctrls.length) ∧ chainIF l ctrls = p) := by
  induction ctrls using List.reverseRecOn with
  | nil =>
    intro N _ _ p hp
    constructor
    · intro _
      exact ⟨p, by simpa using hp, rfl⟩
    · intro _ c hc
      cases hc
  | append_singleton cs c ih =>
    intro N hs hc p hp
    have hsplit := List.pairwise_append.mp hs
    have hcs : List.Sorted (· < ·) cs := hsplit.1
    have hlt : ∀ x ∈ cs, x < c := by
      intro x hx
      exact hsplit.2.2 x hx c (List.mem_singleton_self c)
    have hcN : c < N := hc c (by simp)
    have hcs' : ∀ x ∈ cs, x < N - 1 := by
      intro x hx
      have := hlt x hx
      omega
    have hcpos : 0 < 2 ^ c := Nat.pos_pow_of_pos c (by norm_num)
    have hexp : (N - 1) - cs.length = N - (cs ++ [c]).length := by
      simp only [List.length_append, List.length_cons, List.length_nil]
      omega
    constructor
    · intro hbits
      -- remove bit c from p
      have hbc : p / 2 ^ c % 2 = 1 := hbits c (by simp)
      have hjp : p / 2 ^ (c + 1) < 2 ^ (N - (c + 1)) := dj_lt hcN hp
      have hpm : p % 2 ^ c < 2 ^ c := Nat.mod_lt _ hcpos
      set q := 2 ^ c * (p / 2 ^ (c + 1)) + p % 2 ^ c with hq
      have hq_div : q / 2 ^ c = p / 2 ^ (c + 1) := by
        rw [hq, Nat.mul_add_div hcpos, Nat.div_eq_of_lt hpm]
        omega
      have hq_mod : q % 2 ^ c = p % 2 ^ c := by
        rw [hq, Nat.mul_add_mod, Nat.mod_eq_of_lt hpm]
      have hflip : flipBit (insertZeroBit q c) c = p := by
        rw [flipBit_insertZeroBit_eq, hq_div, hq_mod]
        have hd := ddecomp c p
        rw [hbc] at hd
        calc 2 ^ (c + 1) * (p / 2 ^ (c + 1)) + 2 ^ c + p % 2 ^ c
            = p / 2 ^ (c + 1) * 2 ^ (c + 1) + 1 * 2 ^ c + p % 2 ^ c := by ring
          _ = p := hd.symm
      have hq_lt : q < 2 ^ (N - 1) := by
        have h1 : p / 2 ^ (c + 1) ≤ 2 ^ (N - (c + 1)) - 1 := by omega
        have h2 : 2 ^ c * (p / 2 ^ (c + 1)) ≤ 2 ^ c * (2 ^ (N - (c + 1)) - 1) :=
          Nat.mul_le_mul_left _ h1
        have h3 : 2 ^ c * (2 ^ (N - (c + 1)) - 1) + 2 ^ c = 2 ^ c * 2 ^ (N - (c + 1)) := by
          have h4 : 0 < 2 ^ (N - (c + 1)) := Nat.pos_pow_of_pos _ (by norm_num)
          have h5 : 2 ^ (N - (c + 1)) - 1 + 1 = 2 ^ (N - (c + 1)) := by omega
          calc 2 ^ c * (2 ^ (N - (c + 1)) - 1) + 2 ^ c
              = 2 ^ c * (2 ^ (N - (c + 1)) - 1 + 1) := by ring
            _ = 2 ^ c * 2 ^ (N - (c + 1)) := by rw [h5]
        have h6 : 2 ^ c * 2 ^ (N - (c + 1)) = 2 ^ (N - 1) :=
          pow_mul_pow_eq _ _ _ (by omega)
        omega
      have hq_bits : ∀ x ∈ cs, q / 2 ^ x % 2 = 1 := by
        intro x hx
        have hxc : x < c := hlt x hx
        have h1 : q / 2 ^ x % 2 = (p % 2 ^ c) / 2 ^ x % 2 := by
          rw [hq]
          exact div_mod_two_mul_add _ _ hxc
        have h2 : p / 2 ^ x % 2 = (p % 2 ^ c) / 2 ^ x % 2 := by
          conv_lhs => rw [(Nat.div_add_mod p (2 ^ c)).symm]
          exact div_mod_two_mul_add _ _ hxc
        rw [h1, ← h2]
        exact hbits x (by simp [hx])
      obtain ⟨l, hl, hchain⟩ := (ih (N - 1) hcs hcs' q hq_lt).mp hq_bits
      refine ⟨l, ?_, ?_⟩
      · rw [← hexp]
        exact hl
      · rw [chainIF_append, hchain, hflip]
    · rintro ⟨l, hl, hchain⟩
      have hl' : l < 2 ^ ((N - 1) - cs.length) := by
        rw [hexp]
        exact hl
      have hq_lt : chainIF l cs < 2 ^ (N - 1) := chainIF_lt cs (N - 1) hcs hcs' l hl'
      have hq_bits : ∀ x ∈ cs, chainIF l cs / 2 ^ x % 2 = 1 :=
        (ih (N - 1) hcs hcs' (chainIF l cs) hq_lt).mpr ⟨l, hl', rfl⟩
      rw [chainIF_append] at hchain
      intro x hx
      rcases List.mem_append.mp hx with hxcs | hxc
      · rw [← hchain, insFlip_bit_low _ (hlt x hxcs)]
        exact hq_bits x hxcs
      · have hxc' : x = c := by simpa using hxc
        subst hxc'
        rw [← hchain]
        exact insFlip_bit_self _ _

theorem chainIF_inj (ctrls : List ℕ) {x y : ℕ}
    (h : chainIF x ctrls = chainIF y ctrls) : x = y := by
  rcases Nat.lt_trichotomy x y with hlt | he | hgt
  · exact absurd h (Nat.ne_of_lt (chainIF_strictMono ctrls hlt))
  · exact he
  · exact absurd h.symm (Nat.ne_of_lt (chainIF_strictMono ctrls hgt))

/-! ### Pointwise action of the three multi-control methods -/

theorem m_methodA_point (amps : ℕ → ℝ) (numAmps : ℕ) (ctrls : List ℕ) (p : ℕ) :
    m_methodA amps numAmps ctrls p =
      if p < numAmps ∧ bitsAreAllOne p (getBitMask ctrls) = true
      then f (amps p) else amps p := by
  have hframe : ∀ (b : ℕ → ℝ) (m q : ℕ),
      ¬ (q = m ∧ bitsAreAllOne m (getBitMask ctrls) = true) →
      (if bitsAreAllOne m (getBitMask ctrls) = true
        then Function.update b m (f (b m)) else b) q = b q := by
    intro b m q hq
    by_cases hm : bitsAreAllOne m (getBitMask ctrls) = true
    · rw [if_pos hm, Function.update_noteq (fun he => hq ⟨he, hm⟩)]
    · rw [if_neg hm]
  by_cases hp : p < numAmps ∧ bitsAreAllOne p (getBitMask ctrls) = true
  · rw [if_pos hp]
    have h := foldl_write
      (fun b m => if bitsAreAllOne m (getBitMask ctrls) = true
        then Function.update b m (f (b m)) else b)
      (fun m q => q = m ∧ bitsAreAllOne m (getBitMask ctrls) = true)
      hframe
      (by
        intro b c m hag q hq
        obtain ⟨he, hm⟩ := hq
        have hbc : b q = c q := hag q ⟨he, hm⟩
        rw [he] at hbc ⊢
        simp [hm, hbc])
      (List.range numAmps)
      ((List.nodup_range numAmps).pairwise_of_forall_ne (by
        rintro m1 _ m2 _ hne q ⟨he1, _⟩ ⟨he2, _⟩
        exact hne (he1.symm.trans he2)))
      amps p p (List.mem_range.mpr hp.1) ⟨rfl, hp.2⟩
    simp only [m_methodA, forLoop]
    rw [h]
    simp [hp.2]
  · rw [if_neg hp]
    have h := foldl_frame
      (fun b m => if bitsAreAllOne m (getBitMask ctrls) = true
        then Function.update b m (f (b m)) else b)
      (fun m q => q = m ∧ bitsAreAllOne m (getBitMask ctrls) = true)
      hframe
      (List.range numAmps) amps p
      (by
        rintro m hm ⟨he, hcond⟩
        subst he
        exact hp ⟨List.mem_range.mp hm, hcond⟩)
    simp only [m_methodA, forLoop]
    exact h

theorem m_methodB_point (amps : ℕ → ℝ) (numAmps : ℕ) (ctrls : List ℕ) (p : ℕ) :
    m_methodB amps numAmps ctrls p =
      if p < numAmps ∧ bitsAreAllOne p (getBitMask ctrls) = true
      then f (amps p) else amps p := by
  have hframe : ∀ (b : ℕ → ℝ) (m q : ℕ), ¬ q = m →
      (Function.update b m
        ((1 - if bitsAreAllOne m (getBitMask ctrls) = true then (1 : ℝ) else 0) * b m
          + (if bitsAreAllOne m (getBitMask ctrls) = true then (1 : ℝ) else 0) * f (b m))) q
        = b q := by
    intro b m q hq
    rw [Function.update_noteq hq]
  by_cases hpn : p < numAmps
  · have h := foldl_write
      (fun b m => Function.update b m
        ((1 - if bitsAreAllOne m (getBitMask ctrls) = true then (1 : ℝ) else 0) * b m
          + (if bitsAreAllOne m (getBitMask ctrls) = true then (1 : ℝ) else 0) * f (b m)))
      (fun m q => q = m)
      hframe
      (by
        intro b c m hag q hq
        have hbc : b q = c q := hag q hq
        rw [hq] at hbc ⊢
        simp [hbc])
      (List.range numAmps)
      ((List.nodup_range numAmps).pairwise_of_forall_ne (by
        rintro m1 _ m2 _ hne q he1 he2
        exact hne (he1.symm.trans he2)))
      amps p p (List.mem_range.mpr hpn) rfl
    simp only [m_methodB, forLoop]
    rw [h]
    by_cases hcond : bitsAreAllOne p (getBitMask ctrls) = true
    · rw [if_pos ⟨hpn, hcond⟩]
      simp [hcond]
    · rw [if_neg (fun hc => hcond hc.2)]
      simp [hcond]
  · have h := foldl_frame
      (fun b m => Function.update b m
        ((1 - if bitsAreAllOne m (getBitMask ctrls) = true then (1 : ℝ) else 0) * b m
          + (if bitsAreAllOne m (getBitMask ctrls) = true then (1 : ℝ) else 0) * f (b m)))
      (fun m q => q = m)
      hframe
      (List.range numAmps) amps p
      (by
        intro m hm he
        rw [he] at hpn
        exact hpn (List.mem_range.mp hm))
    rw [if_neg (fun hc => hpn hc.1)]
    simp only [m_methodB, forLoop]
    exact h

theorem m_methodD_point (amps : ℕ → ℝ) (N : ℕ) (ctrls : List ℕ)
    (hk : ctrls.length ≤ N) (p : ℕ) :
    m_methodD amps (2 ^ N) ctrls p =
      if ∃ l, l < 2 ^ (N - ctrls.length) ∧ chainIF l ctrls = p
      then f (amps p) else amps p := by
  have hshift : (2 : ℕ) ^ N >>> ctrls.length = 2 ^ (N - ctrls.length) := by
    rw [Nat.shiftRight_eq_div_pow]
    exact Nat.pow_div hk (by norm_num)
  have hframe : ∀ (b : ℕ → ℝ) (m q : ℕ), ¬ q = chainIF m ctrls →
      (Function.update b (chainIF m ctrls) (f (b (chainIF m ctrls)))) q = b q := by
    intro b m q hq
    rw [Function.update_noteq hq]
  have hD : m_methodD amps (2 ^ N) ctrls
      = (List.range (2 ^ (N - ctrls.length))).foldl
          (fun b m => Function.update b (chainIF m ctrls) (f (b (chainIF m ctrls)))) amps := by
    simp only [m_methodD, forLoop, hshift]
    rfl
  by_cases hex : ∃ l, l < 2 ^ (N - ctrls.length) ∧ chainIF l ctrls = p
  · obtain ⟨l, hl, hchain⟩ := hex
    rw [if_pos ⟨l, hl, hchain⟩, hD]
    have h := foldl_write
      (fun b m => Function.update b (chainIF m ctrls) (f (b (chainIF m ctrls))))
      (fun m q => q = chainIF m ctrls)
      hframe
      (by
        intro b c m hag q hq
        have hbc : b q = c q := hag q hq
        rw [hq] at hbc ⊢
        simp [hbc])
      (List.range (2 ^ (N - ctrls.length)))
      ((List.nodup_range _).pairwise_of_forall_ne (by
        rintro m1 _ m2 _ hne q he1 he2
        exact hne (chainIF_inj ctrls (he1.symm.trans he2).symm).symm))
      amps l p (List.mem_range.mpr hl) hchain.symm
    rw [h]
    show Function.update amps (chainIF l ctrls) (f (amps (chainIF l ctrls))) p = f (amps p)
    rw [← hchain, Function.update_same]
  · rw [if_neg hex, hD]
    exact foldl_frame _ _ hframe _ amps p (by
      intro m hm he
      exact hex ⟨m, List.mem_range.mp hm, he.symm⟩)

/-- How many indices have all control bits set: exactly `2^(N-k)`. -/
theorem card_allOne (N : ℕ) (ctrls : List ℕ)
    (hs : List.Sorted (· < ·) ctrls) (hc : ∀ x ∈ ctrls, x < N) :
    ((Finset.range (2 ^ N)).filter
        (fun p => bitsAreAllOne p (getBitMask ctrls) = true)).card
      = 2 ^ (N - ctrls.length) := by
  have hnd := hs.nodup
  symm
  rw [← Finset.card_range (2 ^ (N - ctrls.length))]
  apply Finset.card_bij (fun l _ => chainIF l ctrls)
  · intro l hl
    rw [Finset.mem_range] at hl
    rw [Finset.mem_filter, Finset.mem_range]
    refine ⟨chainIF_lt ctrls N hs hc l hl, ?_⟩
    rw [bitsAreAllOne_iff hnd]
    intro x hx
    have h1 := chainIF_lt ctrls N hs hc l hl
    exact (chainIF_image ctrls N hs hc (chainIF l ctrls) h1).mpr ⟨l, hl, rfl⟩ x hx
  · intro l1 h1 l2 h2 he
    exact chainIF_inj ctrls he
  · intro p hp
    rw [Finset.mem_filter, Finset.mem_range] at hp
    obtain ⟨l, hl, hchain⟩ := (chainIF_image ctrls N hs hc p hp.1).mp
      ((bitsAreAllOne_iff hnd).mp hp.2)
    exact ⟨l, Finset.mem_range.mpr hl, hchain⟩

theorem getBitMask_single (c : ℕ) : getBitMask [c] = 2 ^ c := by
  simp [getBitMask, flipBit, pow2_eq]

theorem chainIF_single (l c : ℕ) : chainIF l [c] = flipBit (insertZeroBit l c) c := rfl

theorem single_bit_iff (p c : ℕ) :
    getBit p c = 1 ↔ bitsAreAllOne p (getBitMask [c]) = true := by
  rw [getBit_eq, bitsAreAllOne_iff (by simp)]
  simp

theorem card_single_bit (N c : ℕ) (hcN : c < N) :
    ((Finset.range (2 ^ N)).filter (fun p => getBit p c = 1)).card = 2 ^ (N - 1) := by
  have h1 : ((Finset.range (2 ^ N)).filter (fun p => getBit p c = 1))
      = ((Finset.range (2 ^ N)).filter
          (fun p => bitsAreAllOne p (getBitMask [c]) = true)) := by
    apply Finset.filter_congr
    intro x _
    simp [single_bit_iff]
  rw [h1]
  have h2 := card_allOne N [c] (by simp) (by simpa using hcN)
  simpa using h2

theorem methodC_index_eq (c m l : ℕ) :
    m + l * ((1 <<< c) <<< 1) + (1 <<< c) = l * 2 ^ (c + 1) + 1 * 2 ^ c + m := by
  simp only [Nat.shiftLeft_eq, one_mul]
  ring

/-- C3: for every number of qubits `N`, every strictly increasing control
list with entries below `N`, and every input array, the three
multi-control strategies A (branch test with `bitsAreAllOne`), B
(branchless blend) and D (iterated bit insertion) produce identical
output arrays. -/
theorem m_methods_equiv (amps : ℕ → ℝ) (N : ℕ) (ctrls : List ℕ)
    (hs : List.Sorted (· < ·) ctrls) (hc : ∀ c ∈ ctrls, c < N) :
    m_methodB amps (2 ^ N) ctrls = m_methodA amps (2 ^ N) ctrls
      ∧ m_methodD amps (2 ^ N) ctrls = m_methodA amps (2 ^ N) ctrls := by
  have hnd := hs.nodup
  have hk := length_le_of_sorted_lt hs hc
  constructor
  · funext p
    rw [m_methodB_point, m_methodA_point]
  · funext p
    rw [m_methodD_point amps N ctrls hk p, m_methodA_point]
    by_cases hp : p < 2 ^ N
    · have hiff := chainIF_image ctrls N hs hc p hp
      by_cases hcond : bitsAreAllOne p (getBitMask ctrls) = true
      · rw [if_pos (hiff.mp ((bitsAreAllOne_iff hnd).mp hcond)), if_pos ⟨hp, hcond⟩]
      · have hnex : ¬ ∃ l, l < 2 ^ (N - ctrls.length) ∧ chainIF l ctrls = p := by
          rintro ⟨l, hl, hchain⟩
          exact hcond ((bitsAreAllOne_iff hnd).mpr (hiff.mpr ⟨l, hl, hchain⟩))
        rw [if_neg hnex, if_neg (fun hx => hcond hx.2)]
    · have hnex : ¬ ∃ l, l < 2 ^ (N - ctrls.length) ∧ chainIF l ctrls = p := by
        rintro ⟨l, hl, hchain⟩
        exact hp (hchain ▸ chainIF_lt ctrls N hs hc l hl)
      rw [if_neg hnex, if_neg (fun hx => hp hx.1)]

theorem m_methods_equiv_witness :
    m_methodB (fun i => (i : ℝ)) (2 ^ 3) [0, 2] = m_methodA (fun i => (i : ℝ)) (2 ^ 3) [0, 2]
      ∧ m_methodD (fun i => (i : ℝ)) (2 ^ 3) [0, 2]
          = m_methodA (fun i => (i : ℝ)) (2 ^ 3) [0, 2] :=
  m_methods_equiv (fun i => (i : ℝ)) 3 [0, 2] (by decide) (by decide)

/-- C4: the index-reconstruction maps of `s_methodC` (affix pair `(l, m)`),
`s_methodD` (insert-then-flip) and `m_methodD` (chained insert-then-flip)
are injective on their reduced iteration domains; their images are exactly
the in-range indices with the control bit(s) equal to 1, and those write
sets have sizes `2^(N-1)` and `2^(N-k)` respectively. -/
theorem write_sets_injective (N c : ℕ) (ctrls : List ℕ) (hcN : c < N)
    (hs : List.Sorted (· < ·) ctrls) (hc : ∀ x ∈ ctrls, x < N) :
    (∀ l1 < 2 ^ (N - (c + 1)), ∀ m1 < 2 ^ c, ∀ l2 < 2 ^ (N - (c + 1)), ∀ m2 < 2 ^ c,
        m1 + l1 * ((1 <<< c) <<< 1) + (1 <<< c) = m2 + l2 * ((1 <<< c) <<< 1) + (1 <<< c) →
        l1 = l2 ∧ m1 = m2)
    ∧ (∀ p < 2 ^ N, (getBit p c = 1 ↔
        ∃ l < 2 ^ (N - (c + 1)), ∃ m < 2 ^ c,
          p = m + l * ((1 <<< c) <<< 1) + (1 <<< c)))
    ∧ (∀ m1 m2 : ℕ, flipBit (insertZeroBit m1 c) c = flipBit (insertZeroBit m2 c) c →
        m1 = m2)
    ∧ (∀ p < 2 ^ N, (getBit p c = 1 ↔
        ∃ m < 2 ^ (N - 1), flipBit (insertZeroBit m c) c = p))
    ∧ (∀ l1 l2 : ℕ, chainIF l1 ctrls = chainIF l2 ctrls → l1 = l2)
    ∧ (∀ p < 2 ^ N, (bitsAreAllOne p (getBitMask ctrls) = true ↔
        ∃ l < 2 ^ (N - ctrls.length), chainIF l ctrls = p))
    ∧ ((Finset.range (2 ^ N)).filter (fun p => getBit p c = 1)).card = 2 ^ (N - 1)
    ∧ ((Finset.range (2 ^ N)).filter
        (fun p => bitsAreAllOne p (getBitMask ctrls) = true)).card
        = 2 ^ (N - ctrls.length) := by
  have hcpos : 0 < 2 ^ c := Nat.pos_pow_of_pos c (by norm_num)
  refine ⟨?_, ?_, ?_, ?_, ?_, ?_, ?_, ?_⟩
  · intro l1 hl1 m1 hm1 l2 hl2 m2 hm2 h
    rw [methodC_index_eq, methodC_index_eq] at h
    obtain ⟨h1, _, h3⟩ := dinj (by norm_num) hm1 (by norm_num) hm2 h
    exact ⟨h1, h3⟩
  · intro p hp
    constructor
    · intro hbit
      rw [getBit_eq] at hbit
      refine ⟨p / 2 ^ (c + 1), dj_lt hcN hp, p % 2 ^ c, Nat.mod_lt _ hcpos, ?_⟩
      rw [methodC_index_eq]
      have hd := ddecomp c p
      rw [hbit] at hd
      exact hd
    · rintro ⟨l, hl, m, hm, hpe⟩
      rw [methodC_index_eq] at hpe
      rw [getBit_eq, hpe]
      exact (dproj l 1 m (by norm_num) hm).2.1
  · intro m1 m2 h
    exact chainIF_inj [c] h
  · intro p hp
    have h := chainIF_image [c] N (by simp) (by simpa using hcN) p hp
    simp only [List.mem_singleton, forall_eq, List.length_singleton] at h
    rw [getBit_eq]
    exact h
  · intro l1 l2 h
    exact chainIF_inj ctrls h
  · intro p hp
    rw [bitsAreAllOne_iff hs.nodup]
    exact chainIF_image ctrls N hs hc p hp
  · exact card_single_bit N c hcN
  · exact card_allOne N ctrls hs hc

theorem write_sets_injective_witness :
    ((Finset.range (2 ^ 3)).filter
        (fun p => bitsAreAllOne p (getBitMask [0, 2]) = true)).card
      = 2 ^ (3 - [0, 2].length) :=
  (write_sets_injective 3 1 [0, 2] (by norm_num) (by decide) (by decide)).2.2.2.2.2.2.2

/-- C1 (divergence): at `N = 2`, `c = 1` and input `amps[i] = i`, branch-test
strategy A (and the non-affix `s_methodC`) write `f(amps[2])` at index 2,
but the affix variant of `s_methodC` writes `f(amps[0])` there, because its
body reads `amps[i]` (the inner counter) instead of `amps[j1i]`.  Since
`f 0 = 0.015 ≠ 5.415 = f 2`, the four single-control strategies do not all
produce the same output array. -/
theorem s_methodC_affix_diverges :
    s_methodA (fun i => (i : ℝ)) 4 1 2 = f 2
      ∧ s_methodC (fun i => (i : ℝ)) 4 1 2 = f 2
      ∧ s_methodC_affix (fun i => (i : ℝ)) 4 1 2 = f 0
      ∧ s_methodC_affix (fun i => (i : ℝ)) 4 1 ≠ s_methodA (fun i => (i : ℝ)) 4 1 := by
  have hA : s_methodA (fun i => (i : ℝ)) 4 1 2 = f 2 := by
    unfold s_methodA forLoop
    rw [show List.range 4 = [0, 1, 2, 3] from rfl]
    simp only [List.foldl_cons, List.foldl_nil]
    norm_num [getBit, Function.update, Nat.shiftRight_eq_div_pow]
  have hC : s_methodC (fun i => (i : ℝ)) 4 1 2 = f 2 := by
    unfold s_methodC forLoop
    rw [show List.range (4 >>> 2) = [0] from rfl, show List.range ((1 : ℕ) <<< 1) = [0, 1] from
      rfl]
    simp only [List.foldl_cons, List.foldl_nil]
    norm_num [Function.update, show (((1 : ℕ) <<< 1) <<< 1) = 4 from rfl,
      show ((1 : ℕ) <<< 1) = 2 from rfl]
  have hX : s_methodC_affix (fun i => (i : ℝ)) 4 1 2 = f 0 := by
    unfold s_methodC_affix forLoop
    rw [show List.range (4 >>> 2) = [0] from rfl, show List.range (pow2 1) = [0, 1] from rfl]
    simp only [List.foldl_cons, List.foldl_nil]
    norm_num [getZeroBitFromAffix, flipBit, pow2, Function.update,
      show (1 ^^^ 1 <<< 1 : ℕ) = 3 from rfl, show ((1 : ℕ) <<< 1) = 2 from rfl,
      show ((0 : ℕ) ||| 0) = 0 from rfl, show (1 ^^^ (2 : ℕ)) = 3 from rfl]
  refine ⟨hA, hC, hX, fun h => ?_⟩
  have h2 := congrFun h 2
  rw [hA, hX] at h2
  unfold f at h2
  norm_num at h2

/-! ## local_qft.c : gates and the two QFT compositions

Amplitudes are `double complex`, embedded as `ℂ`; a statevector is
`ℕ → ℂ`.  The trigonometric factors live in `ℝ`, whose transcendental
functions are noncomputable in Mathlib, so this section is marked
accordingly. -/

noncomputable section

/-- Function `expI` from utilities.h: `cos phase + i sin phase`. -/
def expI (phase : ℝ) : ℂ := Real.cos phase + Real.sin phase * Complex.I

theorem expI_eq_exp (phase : ℝ) : expI phase = Complex.exp (phase * Complex.I) := by
  rw [Complex.exp_mul_I, expI, Complex.ofReal_cos, Complex.ofReal_sin]

theorem expI_zero : expI 0 = 1 := by
  simp [expI]

theorem expI_add (a b : ℝ) : expI (a + b) = expI a * expI b := by
  rw [expI_eq_exp, expI_eq_exp, expI_eq_exp, ← Complex.exp_add]
  congr 1
  push_cast
  ring

/-- Loop body of `applyHadamard`. -/
def hadBody (fac : ℝ) (jGap off : ℕ) (a : ℕ → ℂ) (j k : ℕ) : ℕ → ℂ :=
  let j0k := j * jGap + k
  let j1k := j0k + off
  let a1 := a j0k
  let a2 := a j1k
  Function.update (Function.update a j0k ((fac : ℂ) * a1 + (fac : ℂ) * a2)) j1k
    ((fac : ℂ) * a1 - (fac : ℂ) * a2)

/-- Gate `applyHadamard` from local_qft.c. -/
def applyHadamard (psi : ℕ → ℂ) (t N : ℕ) : ℕ → ℂ :=
  let jNum := pow2 (N - (t + 1))
  let kNum := pow2 t
  let jGap := pow2 (t + 1)
  let off := pow2 t
  let fac : ℝ := 1 / Real.sqrt 2
  forLoop jNum (fun a j => forLoop kNum (fun a2 k => hadBody fac jGap off a2 j k) a) psi

/-- Loop body of `applyControlledPhase`. -/
def cpBody (fac : ℂ) (jGap kGap off : ℕ) (a : ℕ → ℂ) (j k l : ℕ) : ℕ → ℂ :=
  let j0k0l := j * jGap + k * kGap + l
  let j1k1l := j0k0l + off
  Function.update a j1k1l (a j1k1l * fac)

/-- Gate `applyControlledPhase` from local_qft.c (it sorts control and target
itself). -/
def applyControlledPhase (psi : ℕ → ℂ) (c t : ℕ) (theta : ℝ) (N : ℕ) : ℕ → ℂ :=
  let t1 := if t < c then t else c
  let t2 := if c > t then c else t
  let fac := expI theta
  let jNum := pow2 (N - (t2 + 1))
  let kNum := pow2 (t2 - (t1 + 1))
  let lNum := pow2 t1
  let jGap := pow2 (t2 + 1)
  let kGap := pow2 (t1 + 1)
  let off := pow2 t1 + pow2 t2
  forLoop jNum (fun a j => forLoop kNum (fun a2 k => forLoop lNum
    (fun a3 l => cpBody fac jGap kGap off a3 j k l) a2) a) psi

/-- Loop body of `applySwap`. -/
def swapBody (jGap kGap off1 off2 : ℕ) (a : ℕ → ℂ) (j k l : ℕ) : ℕ → ℂ :=
  let j0k0l := j * jGap + k * kGap + l
  let j0k1l := j0k0l + off1
  let j1k0l := j0k0l + off2
  let tmp := a j0k1l
  Function.update (Function.update a j0k1l (a j1k0l)) j1k0l tmp

/-- Gate `applySwap` from local_qft.c (sorts its two qubit arguments first). -/
def applySwap (psi : ℕ → ℂ) (q1 q2 : ℕ) (N : ℕ) : ℕ → ℂ :=
  let t1 := if q1 > q2 then q2 else q1
  let t2 := if q1 > q2 then q1 else q2
  let jNum := pow2 (N - (t2 + 1))
  let kNum := pow2 (t2 - (t1 + 1))
  let lNum := pow2 t1
  let jGap := pow2 (t2 + 1)
  let kGap := pow2 (t1 + 1)
  let off1 := pow2 t1
  let off2 := pow2 t2
  forLoop jNum (fun a j => forLoop kNum (fun a2 k => forLoop lNum
    (fun a3 l => swapBody jGap kGap off1 off2 a3 j k l) a2) a) psi

/-- Function `applyMultiplePhases` from local_qft.c: the descending loop
`for (t = tMax-1; t >= 0; t--)` with companion counter `m` starting at 2;
the first argument of `mpAux` counts the remaining iterations (`t + 1`). -/
def mpAux (N tMax : ℕ) : ℕ → ℕ → (ℕ → ℂ) → (ℕ → ℂ)
  | 0, _, a => a
  | t + 1, m, a =>
    mpAux N tMax t (m + 1)
      (applyControlledPhase a tMax t (2 * Real.pi / ((pow2 m : ℕ) : ℝ)) N)

def applyMultiplePhases (psi : ℕ → ℂ) (tMax N : ℕ) : ℕ → ℂ :=
  mpAux N tMax tMax 2 psi

/-- Loop body of `applyMergedPhases`. -/
def mergedBody (fac : ℝ) (jGap kNum kMask : ℕ) (a : ℕ → ℂ) (j k : ℕ) : ℕ → ℂ :=
  let j1k := j * jGap + kNum + k
  let theta := fac * ((j1k &&& kMask : ℕ) : ℝ)
  Function.update a j1k (a j1k * expI theta)

/-- Function `applyMergedPhases` from local_qft.c. -/
def applyMergedPhases (psi : ℕ → ℂ) (tMax N : ℕ) : ℕ → ℂ :=
  let jNum := pow2 (N - (tMax + 1))
  let kNum := pow2 tMax
  let jGap := pow2 (tMax + 1)
  let kMask := kNum - 1
  let fac : ℝ := Real.pi / ((kNum : ℕ) : ℝ)
  forLoop jNum (fun a j => forLoop kNum (fun a2 k => mergedBody fac jGap kNum kMask a2 j k) a)
    psi

/-- The descending gate loop of `applyQFTCircuit`
(`for (t = N-1; t > 0; t--)`), counted by its first argument. -/
def qftAuxC (N : ℕ) : ℕ → (ℕ → ℂ) → (ℕ → ℂ)
  | 0, a => a
  | t + 1, a => qftAuxC N t (applyMultiplePhases (applyHadamard a (t + 1) N) (t + 1) N)

/-- Function `applyQFTCircuit` from local_qft.c. -/
def applyQFTCircuit (psi : ℕ → ℂ) (N : ℕ) : ℕ → ℂ :=
  let a1 := qftAuxC N (N - 1) psi
  let a2 := applyHadamard a1 0 N
  forLoop (N / 2) (fun a t => applySwap a t (N - t - 1) N) a2

/-- The descending gate loop of `applyQFTAlgorithm`. -/
def qftAuxA (N : ℕ) : ℕ → (ℕ → ℂ) → (ℕ → ℂ)
  | 0, a => a
  | t + 1, a => qftAuxA N t (applyMergedPhases (applyHadamard a (t + 1) N) (t + 1) N)

/-- Function `applyQFTAlgorithm` from local_qft.c. -/
def applyQFTAlgorithm (psi : ℕ → ℂ) (N : ℕ) : ℕ → ℂ :=
  let a1 := qftAuxA N (N - 1) psi
  let a2 := applyHadamard a1 0 N
  forLoop (N / 2) (fun a t => applySwap a t (N - t - 1) N) a2

/-! ### Pointwise action of applyMergedPhases -/

theorem applyMergedPhases_point (psi : ℕ → ℂ) (tMax N : ℕ) (htN : tMax < N) (p : ℕ) :
    applyMergedPhases psi tMax N p =
      if p < 2 ^ N ∧ p / 2 ^ tMax % 2 = 1
      then psi p * expI (Real.pi / ((2 ^ tMax : ℕ) : ℝ) * ((p &&& (2 ^ tMax - 1) : ℕ) : ℝ))
      else psi p := by
  have hpos : 0 < 2 ^ tMax := Nat.pos_pow_of_pos tMax (by norm_num)
  have hE : applyMergedPhases psi tMax N
      = (prodL (List.range (2 ^ (N - (tMax + 1)))) (List.range (2 ^ tMax))).foldl
          (fun a q => mergedBody (Real.pi / ((2 ^ tMax : ℕ) : ℝ)) (2 ^ (tMax + 1))
            (2 ^ tMax) (2 ^ tMax - 1) a q.1 q.2) psi := by
    simp only [applyMergedPhases, pow2_eq]
    exact forLoop_two _ _ _ psi
  have hframe : ∀ (b : ℕ → ℂ) (m : ℕ × ℕ) (q : ℕ),
      ¬ q = m.1 * 2 ^ (tMax + 1) + 2 ^ tMax + m.2 →
      mergedBody (Real.pi / ((2 ^ tMax : ℕ) : ℝ)) (2 ^ (tMax + 1)) (2 ^ tMax)
        (2 ^ tMax - 1) b m.1 m.2 q = b q := by
    intro b m q hq
    simp only [mergedBody]
    rw [Function.update_noteq hq]
  have hpw : (prodL (List.range (2 ^ (N - (tMax + 1)))) (List.range (2 ^ tMax))).Pairwise
      (fun m1 m2 : ℕ × ℕ => ∀ q : ℕ, q = m1.1 * 2 ^ (tMax + 1) + 2 ^ tMax + m1.2 →
        ¬ q = m2.1 * 2 ^ (tMax + 1) + 2 ^ tMax + m2.2) := by
    apply (nodup_prodL (List.nodup_range _) (List.nodup_range _)).pairwise_of_forall_ne
    intro m1 hm1 m2 hm2 hne q hq1 hq2
    rw [mem_prodL] at hm1 hm2
    have hk1 := List.mem_range.mp hm1.2
    have hk2 := List.mem_range.mp hm2.2
    rw [hq1] at hq2
    have e1 : m1.1 * 2 ^ (tMax + 1) + 2 ^ tMax + m1.2
        = m1.1 * 2 ^ (tMax + 1) + 1 * 2 ^ tMax + m1.2 := by ring
    have e2 : m2.1 * 2 ^ (tMax + 1) + 2 ^ tMax + m2.2
        = m2.1 * 2 ^ (tMax + 1) + 1 * 2 ^ tMax + m2.2 := by ring
    rw [e1, e2] at hq2
    obtain ⟨hj, _, hk⟩ := dinj (by norm_num) hk1 (by norm_num) hk2 hq2
    exact hne (Prod.ext hj hk)
  by_cases hp : p < 2 ^ N ∧ p / 2 ^ tMax % 2 = 1
  · rw [if_pos hp, hE]
    obtain ⟨hpN, hbit⟩ := hp
    have hj := dj_lt htN hpN
    have hkp : p % 2 ^ tMax < 2 ^ tMax := Nat.mod_lt _ hpos
    have hdec : p = p / 2 ^ (tMax + 1) * 2 ^ (tMax + 1) + 2 ^ tMax + p % 2 ^ tMax := by
      have hd := ddecomp tMax p
      rw [hbit] at hd
      conv_lhs => rw [hd]
      ring
    have h := foldl_write
      (fun a q => mergedBody (Real.pi / ((2 ^ tMax : ℕ) : ℝ)) (2 ^ (tMax + 1))
        (2 ^ tMax) (2 ^ tMax - 1) a q.1 q.2)
      (fun m q => q = m.1 * 2 ^ (tMax + 1) + 2 ^ tMax + m.2)
      (fun b m q hq => hframe b m q hq)
      (by
        intro b c m hag q hq
        have hbc : b q = c q := hag q hq
        simp only [mergedBody]
        rw [hq] at hbc ⊢
        rw [Function.update_same, Function.update_same, hbc])
      (prodL (List.range (2 ^ (N - (tMax + 1)))) (List.range (2 ^ tMax)))
      hpw
      psi (p / 2 ^ (tMax + 1), p % 2 ^ tMax) p
      (mem_prodL.mpr ⟨List.mem_range.mpr hj, List.mem_range.mpr hkp⟩)
      hdec
    rw [h]
    simp only [mergedBody]
    rw [← hdec, Function.update_same]
  · rw [if_neg hp, hE]
    apply foldl_frame _ _ hframe _ psi p
    intro m hm hS
    rw [mem_prodL] at hm
    have hjm := List.mem_range.mp hm.1
    have hkm := List.mem_range.mp hm.2
    have e1 : m.1 * 2 ^ (tMax + 1) + 2 ^ tMax + m.2
        = m.1 * 2 ^ (tMax + 1) + 1 * 2 ^ tMax + m.2 := by ring
    apply hp
    constructor
    · rw [hS, e1]
      exact dlt htN hjm (by norm_num) hkm
    · rw [hS, e1]
      exact (dproj m.1 1 m.2 (by norm_num) hkm).2.1

/-! ### Pointwise action of applyControlledPhase -/

theorem cp_core (psi : ℕ → ℂ) (fac : ℂ) (s1 s2 N : ℕ) (h12 : s1 < s2) (h2N : s2 < N)
    (p : ℕ) :
    forLoop (2 ^ (N - (s2 + 1))) (fun a j => forLoop (2 ^ (s2 - (s1 + 1))) (fun a2 k =>
      forLoop (2 ^ s1) (fun a3 l =>
        cpBody fac (2 ^ (s2 + 1)) (2 ^ (s1 + 1)) (2 ^ s1 + 2 ^ s2) a3 j k l) a2) a) psi p
      = if p < 2 ^ N ∧ p / 2 ^ s1 % 2 = 1 ∧ p / 2 ^ s2 % 2 = 1
        then psi p * fac else psi p := by
  have hpos1 : 0 < 2 ^ s1 := Nat.pos_pow_of_pos s1 (by norm_num)
  have hposM : 0 < 2 ^ (s2 - s1 - 1) := Nat.pos_pow_of_pos _ (by norm_num)
  rw [show s2 - (s1 + 1) = s2 - s1 - 1 from by omega]
  rw [forLoop_three]
  have hcan : ∀ m : (ℕ × ℕ) × ℕ,
      m.1.1 * 2 ^ (s2 + 1) + m.1.2 * 2 ^ (s1 + 1) + m.2 + (2 ^ s1 + 2 ^ s2)
        = m.1.1 * 2 ^ (s2 + 1) + 1 * 2 ^ s2 + m.1.2 * 2 ^ (s1 + 1) + 1 * 2 ^ s1 + m.2 := by
    intro m
    ring
  have hframe : ∀ (b : ℕ → ℂ) (m : (ℕ × ℕ) × ℕ) (q : ℕ),
      ¬ q = m.1.1 * 2 ^ (s2 + 1) + m.1.2 * 2 ^ (s1 + 1) + m.2 + (2 ^ s1 + 2 ^ s2) →
      cpBody fac (2 ^ (s2 + 1)) (2 ^ (s1 + 1)) (2 ^ s1 + 2 ^ s2) b m.1.1 m.1.2 m.2 q
        = b q := by
    intro b m q hq
    simp only [cpBody]
    rw [Function.update_noteq hq]
  have hbounds : ∀ m : (ℕ × ℕ) × ℕ,
      m ∈ prodL (prodL (List.range (2 ^ (N - (s2 + 1)))) (List.range (2 ^ (s2 - s1 - 1))))
        (List.range (2 ^ s1)) →
      m.1.1 < 2 ^ (N - (s2 + 1)) ∧ m.1.2 < 2 ^ (s2 - s1 - 1) ∧ m.2 < 2 ^ s1 := by
    intro m hm
    rw [mem_prodL] at hm
    obtain ⟨hm1, hm2⟩ := hm
    rw [mem_prodL] at hm1
    exact ⟨List.mem_range.mp hm1.1, List.mem_range.mp hm1.2, List.mem_range.mp hm2⟩
  have hpw : (prodL (prodL (List.range (2 ^ (N - (s2 + 1)))) (List.range (2 ^ (s2 - s1 - 1))))
      (List.range (2 ^ s1))).Pairwise
      (fun m1 m2 : (ℕ × ℕ) × ℕ => ∀ q : ℕ,
        q = m1.1.1 * 2 ^ (s2 + 1) + m1.1.2 * 2 ^ (s1 + 1) + m1.2 + (2 ^ s1 + 2 ^ s2) →
        ¬ q = m2.1.1 * 2 ^ (s2 + 1) + m2.1.2 * 2 ^ (s1 + 1) + m2.2 + (2 ^ s1 + 2 ^ s2)) := by
    apply (nodup_prodL (nodup_prodL (List.nodup_range _) (List.nodup_range _))
      (List.nodup_range _)).pairwise_of_forall_ne
    intro m1 hm1 m2 hm2 hne q hq1 hq2
    obtain ⟨_, hk1, hl1⟩ := hbounds m1 hm1
    obtain ⟨_, hk2, hl2⟩ := hbounds m2 hm2
    rw [hq1, hcan m1, hcan m2] at hq2
    obtain ⟨hj, _, hk, _, hl⟩ := tinj h12 (by norm_num) hk1 (by norm_num) hl1
      (by norm_num) hk2 (by norm_num) hl2 hq2
    exact hne (Prod.ext (Prod.ext hj hk) hl)
  by_cases hp : p < 2 ^ N ∧ p / 2 ^ s1 % 2 = 1 ∧ p / 2 ^ s2 % 2 = 1
  · rw [if_pos hp]
    obtain ⟨hpN, hbit1, hbit2⟩ := hp
    have hj := dj_lt h2N hpN
    have hk : p / 2 ^ (s1 + 1) % 2 ^ (s2 - s1 - 1) < 2 ^ (s2 - s1 - 1) := Nat.mod_lt _ hposM
    have hl : p % 2 ^ s1 < 2 ^ s1 := Nat.mod_lt _ hpos1
    have hdec : p = p / 2 ^ (s2 + 1) * 2 ^ (s2 + 1)
        + p / 2 ^ (s1 + 1) % 2 ^ (s2 - s1 - 1) * 2 ^ (s1 + 1) + p % 2 ^ s1
        + (2 ^ s1 + 2 ^ s2) := by
      have hd := tdecomp h12 p
      rw [hbit1, hbit2] at hd
      conv_lhs => rw [hd]
      ring
    have h := foldl_write
      (fun a q => cpBody fac (2 ^ (s2 + 1)) (2 ^ (s1 + 1)) (2 ^ s1 + 2 ^ s2) a q.1.1 q.1.2 q.2)
      (fun m q => q = m.1.1 * 2 ^ (s2 + 1) + m.1.2 * 2 ^ (s1 + 1) + m.2 + (2 ^ s1 + 2 ^ s2))
      hframe
      (by
        intro b c m hag q hq
        have hbc : b q = c q := hag q hq
        simp only [cpBody]
        rw [hq] at hbc ⊢
        rw [Function.update_same, Function.update_same, hbc])
      _ hpw psi
      ((p / 2 ^ (s2 + 1), p / 2 ^ (s1 + 1) % 2 ^ (s2 - s1 - 1)), p % 2 ^ s1) p
      (mem_prodL.mpr ⟨mem_prodL.mpr ⟨List.mem_range.mpr hj, List.mem_range.mpr hk⟩,
        List.mem_range.mpr hl⟩)
      hdec
    rw [h]
    simp only [cpBody]
    rw [← hdec, Function.update_same]
  · rw [if_neg hp]
    apply foldl_frame _ _ hframe _ psi p
    intro m hm hS
    obtain ⟨hjm, hkm, hlm⟩ := hbounds m hm
    apply hp
    rw [hS, hcan m]
    refine ⟨tlt h12 h2N hjm (by norm_num) hkm (by norm_num) hlm, ?_, ?_⟩
    · exact (tproj h12 m.1.1 1 m.1.2 1 m.2 (by norm_num) hkm (by norm_num) hlm).2.2.2.1
    · exact (tproj h12 m.1.1 1 m.1.2 1 m.2 (by norm_num) hkm (by norm_num) hlm).2.1

/-- Pointwise action of `applyControlledPhase` for distinct in-range
control and target. -/
theorem applyControlledPhase_point (psi : ℕ → ℂ) (c t : ℕ) (theta : ℝ) (N : ℕ)
    (hct : c ≠ t) (hcN : c < N) (htN : t < N) (p : ℕ) :
    applyControlledPhase psi c t theta N p =
      if p < 2 ^ N ∧ p / 2 ^ c % 2 = 1 ∧ p / 2 ^ t % 2 = 1
      then psi p * expI theta else psi p := by
  rcases lt_or_gt_of_ne hct with hlt | hgt
  · -- c < t : t1 = c, t2 = t
    have hE : applyControlledPhase psi c t theta N
        = forLoop (2 ^ (N - (t + 1))) (fun a j => forLoop (2 ^ (t - (c + 1))) (fun a2 k =>
            forLoop (2 ^ c) (fun a3 l =>
              cpBody (expI theta) (2 ^ (t + 1)) (2 ^ (c + 1)) (2 ^ c + 2 ^ t) a3 j k l) a2) a)
            psi := by
      simp only [applyControlledPhase, if_neg (by omega : ¬ t < c),
        if_neg (by omega : ¬ c > t), pow2_eq]
    rw [hE, cp_core psi (expI theta) c t N hlt htN p]
  · -- t < c : t1 = t, t2 = c
    have hE : applyControlledPhase psi c t theta N
        = forLoop (2 ^ (N - (c + 1))) (fun a j => forLoop (2 ^ (c - (t + 1))) (fun a2 k =>
            forLoop (2 ^ t) (fun a3 l =>
              cpBody (expI theta) (2 ^ (c + 1)) (2 ^ (t + 1)) (2 ^ t + 2 ^ c) a3 j k l) a2) a)
            psi := by
      simp only [applyControlledPhase, if_pos (by omega : t < c),
        if_pos (by omega : c > t), pow2_eq]
    rw [hE, cp_core psi (expI theta) t c N hgt hcN p]
    apply if_congr ?_ rfl rfl
    constructor
    · rintro ⟨h1, h2, h3⟩
      exact ⟨h1, h3, h2⟩
    · rintro ⟨h1, h2, h3⟩
      exact ⟨h1, h3, h2⟩

/-- C7: every amplitude whose flat index has control bit 0 or target bit 0
is untouched by `applyControlledPhase`; only indices with both bits 1 get
the phase factor. -/
theorem applyControlledPhase_frame (psi : ℕ → ℂ) (c t : ℕ) (theta : ℝ) (N : ℕ)
    (hct : c ≠ t) (hcN : c < N) (htN : t < N) (p : ℕ) (hp : p < 2 ^ N)
    (hbit : getBit p c = 0 ∨ getBit p t = 0) :
    applyControlledPhase psi c t theta N p = psi p := by
  rw [applyControlledPhase_point psi c t theta N hct hcN htN p, if_neg]
  rintro ⟨h1, h2, h3⟩
  rcases hbit with h | h
  · rw [getBit_eq] at h
    omega
  · rw [getBit_eq] at h
    omega

theorem applyControlledPhase_frame_witness :
    applyControlledPhase (fun x => (x : ℂ)) 1 0 1 2 1 = ((1 : ℕ) : ℂ) :=
  applyControlledPhase_frame (fun x => (x : ℂ)) 1 0 1 2 (by norm_num) (by norm_num)
    (by norm_num) 1 (by norm_num) (Or.inl (by decide))

/-! ### Pointwise action of applySwap -/

/-- The index with the bits at `s1` and `s2` exchanged (a proof-side
description; the kernels never compute it explicitly). -/
def partnerIdx (s1 s2 p : ℕ) : ℕ :=
  p / 2 ^ (s2 + 1) * 2 ^ (s2 + 1) + p / 2 ^ s1 % 2 * 2 ^ s2
    + p / 2 ^ (s1 + 1) % 2 ^ (s2 - s1 - 1) * 2 ^ (s1 + 1) + p / 2 ^ s2 % 2 * 2 ^ s1
    + p % 2 ^ s1

theorem partnerIdx_proj {s1 s2 : ℕ} (p : ℕ) (h12 : s1 < s2) :
    partnerIdx s1 s2 p / 2 ^ (s2 + 1) = p / 2 ^ (s2 + 1)
      ∧ partnerIdx s1 s2 p / 2 ^ s2 % 2 = p / 2 ^ s1 % 2
      ∧ partnerIdx s1 s2 p / 2 ^ (s1 + 1) % 2 ^ (s2 - s1 - 1)
          = p / 2 ^ (s1 + 1) % 2 ^ (s2 - s1 - 1)
      ∧ partnerIdx s1 s2 p / 2 ^ s1 % 2 = p / 2 ^ s2 % 2
      ∧ partnerIdx s1 s2 p % 2 ^ s1 = p % 2 ^ s1 := by
  unfold partnerIdx
  exact tproj h12 _ _ _ _ _ (Nat.mod_lt _ (by norm_num))
    (Nat.mod_lt _ (Nat.pos_pow_of_pos _ (by norm_num))) (Nat.mod_lt _ (by norm_num))
    (Nat.mod_lt _ (Nat.pos_pow_of_pos _ (by norm_num)))

theorem partnerIdx_invol {s1 s2 : ℕ} (p : ℕ) (h12 : s1 < s2) :
    partnerIdx s1 s2 (partnerIdx s1 s2 p) = p := by
  obtain ⟨h1, h2, h3, h4, h5⟩ := partnerIdx_proj p h12
  conv_lhs => rw [partnerIdx]
  rw [h1, h2, h3, h4, h5]
  exact (tdecomp h12 p).symm

theorem partnerIdx_lt {s1 s2 N : ℕ} (p : ℕ) (h12 : s1 < s2) (h2N : s2 < N)
    (hp : p < 2 ^ N) : partnerIdx s1 s2 p < 2 ^ N := by
  unfold partnerIdx
  exact tlt h12 h2N (dj_lt h2N hp) (Nat.mod_lt _ (by norm_num))
    (Nat.mod_lt _ (Nat.pos_pow_of_pos _ (by norm_num))) (Nat.mod_lt _ (by norm_num))
    (Nat.mod_lt _ (Nat.pos_pow_of_pos _ (by norm_num)))

theorem partnerIdx_self {s1 s2 : ℕ} (p : ℕ) (h12 : s1 < s2)
    (heq : p / 2 ^ s1 % 2 = p / 2 ^ s2 % 2) : partnerIdx s1 s2 p = p := by
  unfold partnerIdx
  have hd := tdecomp h12 p
  conv_rhs => rw [hd]
  rw [heq]

theorem swap_core (psi : ℕ → ℂ) (s1 s2 N : ℕ) (h12 : s1 < s2) (h2N : s2 < N) (p : ℕ) :
    forLoop (2 ^ (N - (s2 + 1))) (fun a j => forLoop (2 ^ (s2 - (s1 + 1))) (fun a2 k =>
      forLoop (2 ^ s1) (fun a3 l =>
        swapBody (2 ^ (s2 + 1)) (2 ^ (s1 + 1)) (2 ^ s1) (2 ^ s2) a3 j k l) a2) a) psi p
      = if p < 2 ^ N then psi (partnerIdx s1 s2 p) else psi p := by
  have hpos1 : 0 < 2 ^ s1 := Nat.pos_pow_of_pos s1 (by norm_num)
  have hposM : 0 < 2 ^ (s2 - s1 - 1) := Nat.pos_pow_of_pos _ (by norm_num)
  have hp12 : (2 : ℕ) ^ s1 < 2 ^ s2 := Nat.pow_lt_pow_right (by norm_num) h12
  rw [show s2 - (s1 + 1) = s2 - s1 - 1 from by omega]
  rw [forLoop_three]
  have hcan1 : ∀ m : (ℕ × ℕ) × ℕ,
      m.1.1 * 2 ^ (s2 + 1) + m.1.2 * 2 ^ (s1 + 1) + m.2 + 2 ^ s1
        = m.1.1 * 2 ^ (s2 + 1) + 0 * 2 ^ s2 + m.1.2 * 2 ^ (s1 + 1) + 1 * 2 ^ s1 + m.2 := by
    intro m
    ring
  have hcan2 : ∀ m : (ℕ × ℕ) × ℕ,
      m.1.1 * 2 ^ (s2 + 1) + m.1.2 * 2 ^ (s1 + 1) + m.2 + 2 ^ s2
        = m.1.1 * 2 ^ (s2 + 1) + 1 * 2 ^ s2 + m.1.2 * 2 ^ (s1 + 1) + 0 * 2 ^ s1 + m.2 := by
    intro m
    ring
  have hneq : ∀ m : (ℕ × ℕ) × ℕ,
      m.1.1 * 2 ^ (s2 + 1) + m.1.2 * 2 ^ (s1 + 1) + m.2 + 2 ^ s1
        ≠ m.1.1 * 2 ^ (s2 + 1) + m.1.2 * 2 ^ (s1 + 1) + m.2 + 2 ^ s2 := by
    intro m
    omega
  have hframe : ∀ (b : ℕ → ℂ) (m : (ℕ × ℕ) × ℕ) (q : ℕ),
      ¬ (q = m.1.1 * 2 ^ (s2 + 1) + m.1.2 * 2 ^ (s1 + 1) + m.2 + 2 ^ s1
          ∨ q = m.1.1 * 2 ^ (s2 + 1) + m.1.2 * 2 ^ (s1 + 1) + m.2 + 2 ^ s2) →
      swapBody (2 ^ (s2 + 1)) (2 ^ (s1 + 1)) (2 ^ s1) (2 ^ s2) b m.1.1 m.1.2 m.2 q
        = b q := by
    intro b m q hq
    push_neg at hq
    simp only [swapBody]
    rw [Function.update_noteq hq.2, Function.update_noteq hq.1]
  have hbounds : ∀ m : (ℕ × ℕ) × ℕ,
      m ∈ prodL (prodL (List.range (2 ^ (N - (s2 + 1)))) (List.range (2 ^ (s2 - s1 - 1))))
        (List.range (2 ^ s1)) →
      m.1.1 < 2 ^ (N - (s2 + 1)) ∧ m.1.2 < 2 ^ (s2 - s1 - 1) ∧ m.2 < 2 ^ s1 := by
    intro m hm
    rw [mem_prodL] at hm
    obtain ⟨hm1, hm2⟩ := hm
    rw [mem_prodL] at hm1
    exact ⟨List.mem_range.mp hm1.1, List.mem_range.mp hm1.2, List.mem_range.mp hm2⟩
  have hlocal : ∀ (b c : ℕ → ℂ) (m : (ℕ × ℕ) × ℕ),
      (∀ q : ℕ, (q = m.1.1 * 2 ^ (s2 + 1) + m.1.2 * 2 ^ (s1 + 1) + m.2 + 2 ^ s1
          ∨ q = m.1.1 * 2 ^ (s2 + 1) + m.1.2 * 2 ^ (s1 + 1) + m.2 + 2 ^ s2) → b q = c q) →
      ∀ q : ℕ, (q = m.1.1 * 2 ^ (s2 + 1) + m.1.2 * 2 ^ (s1 + 1) + m.2 + 2 ^ s1
          ∨ q = m.1.1 * 2 ^ (s2 + 1) + m.1.2 * 2 ^ (s1 + 1) + m.2 + 2 ^ s2) →
      swapBody (2 ^ (s2 + 1)) (2 ^ (s1 + 1)) (2 ^ s1) (2 ^ s2) b m.1.1 m.1.2 m.2 q
        = swapBody (2 ^ (s2 + 1)) (2 ^ (s1 + 1)) (2 ^ s1) (2 ^ s2) c m.1.1 m.1.2 m.2 q := by
    intro b c m hag q hq
    have hb1 := hag _ (Or.inl rfl)
    have hb2 := hag _ (Or.inr rfl)
    simp only [swapBody]
    rcases hq with he | he
    · rw [he, Function.update_noteq (hneq m), Function.update_noteq (hneq m),
        Function.update_same, Function.update_same, hb2]
    · rw [he, Function.update_same, Function.update_same, hb1]
  have hpw : (prodL (prodL (List.range (2 ^ (N - (s2 + 1))))
      (List.range (2 ^ (s2 - s1 - 1)))) (List.range (2 ^ s1))).Pairwise
      (fun m1 m2 : (ℕ × ℕ) × ℕ => ∀ q : ℕ,
        (q = m1.1.1 * 2 ^ (s2 + 1) + m1.1.2 * 2 ^ (s1 + 1) + m1.2 + 2 ^ s1
          ∨ q = m1.1.1 * 2 ^ (s2 + 1) + m1.1.2 * 2 ^ (s1 + 1) + m1.2 + 2 ^ s2) →
        ¬ (q = m2.1.1 * 2 ^ (s2 + 1) + m2.1.2 * 2 ^ (s1 + 1) + m2.2 + 2 ^ s1
          ∨ q = m2.1.1 * 2 ^ (s2 + 1) + m2.1.2 * 2 ^ (s1 + 1) + m2.2 + 2 ^ s2)) := by
    apply (nodup_prodL (nodup_prodL (List.nodup_range _) (List.nodup_range _))
      (List.nodup_range _)).pairwise_of_forall_ne
    intro m1 hm1 m2 hm2 hne q hq1 hq2
    obtain ⟨_, hk1, hl1⟩ := hbounds m1 hm1
    obtain ⟨_, hk2, hl2⟩ := hbounds m2 hm2
    rcases hq1 with he1 | he1 <;> rcases hq2 with he2 | he2 <;>
      rw [he1] at he2
    · rw [hcan1 m1, hcan1 m2] at he2
      obtain ⟨hj, _, hk, _, hl⟩ := tinj h12 (by norm_num) hk1 (by norm_num) hl1
        (by norm_num) hk2 (by norm_num) hl2 he2
      exact hne (Prod.ext (Prod.ext hj hk) hl)
    · rw [hcan1 m1, hcan2 m2] at he2
      obtain ⟨_, hb, _, _, _⟩ := tinj h12 (by norm_num) hk1 (by norm_num) hl1
        (by norm_num) hk2 (by norm_num) hl2 he2
      exact absurd hb (by norm_num)
    · rw [hcan2 m1, hcan1 m2] at he2
      obtain ⟨_, hb, _, _, _⟩ := tinj h12 (by norm_num) hk1 (by norm_num) hl1
        (by norm_num) hk2 (by norm_num) hl2 he2
      exact absurd hb (by norm_num)
    · rw [hcan2 m1, hcan2 m2] at he2
      obtain ⟨hj, _, hk, _, hl⟩ := tinj h12 (by norm_num) hk1 (by norm_num) hl1
        (by norm_num) hk2 (by norm_num) hl2 he2
      exact hne (Prod.ext (Prod.ext hj hk) hl)
  by_cases hpN : p < 2 ^ N
  · rw [if_pos hpN]
    have hj := dj_lt h2N hpN
    have hk : p / 2 ^ (s1 + 1) % 2 ^ (s2 - s1 - 1) < 2 ^ (s2 - s1 - 1) := Nat.mod_lt _ hposM
    have hl : p % 2 ^ s1 < 2 ^ s1 := Nat.mod_lt _ hpos1
    have hb1 : p / 2 ^ s1 % 2 < 2 := Nat.mod_lt _ (by norm_num)
    have hb2 : p / 2 ^ s2 % 2 < 2 := Nat.mod_lt _ (by norm_num)
    have hmem : ((p / 2 ^ (s2 + 1), p / 2 ^ (s1 + 1) % 2 ^ (s2 - s1 - 1)), p % 2 ^ s1)
        ∈ prodL (prodL (List.range (2 ^ (N - (s2 + 1)))) (List.range (2 ^ (s2 - s1 - 1))))
          (List.range (2 ^ s1)) :=
      mem_prodL.mpr ⟨mem_prodL.mpr ⟨List.mem_range.mpr hj, List.mem_range.mpr hk⟩,
        List.mem_range.mpr hl⟩
    have hd := tdecomp h12 p
    rcases (show p / 2 ^ s1 % 2 = 0 ∨ p / 2 ^ s1 % 2 = 1 from by omega) with h1 | h1 <;>
      rcases (show p / 2 ^ s2 % 2 = 0 ∨ p / 2 ^ s2 % 2 = 1 from by omega) with h2 | h2
    · -- both bits 0 : untouched, partner is p itself
      rw [partnerIdx_self p h12 (by omega)]
      apply foldl_frame _ _ hframe _ psi p
      intro m hm hS
      obtain ⟨_, hkm, hlm⟩ := hbounds m hm
      rcases hS with he | he
      · rw [hcan1 m] at he
        have := (tproj h12 m.1.1 0 m.1.2 1 m.2 (by norm_num) hkm (by norm_num) hlm).2.2.2.1
        rw [← he] at this
        omega
      · rw [hcan2 m] at he
        have := (tproj h12 m.1.1 1 m.1.2 0 m.2 (by norm_num) hkm (by norm_num) hlm).2.1
        rw [← he] at this
        omega
    · -- bit s1 = 0, bit s2 = 1 : p is the j1k0l of its tuple
      have hdec : p = p / 2 ^ (s2 + 1) * 2 ^ (s2 + 1)
          + p / 2 ^ (s1 + 1) % 2 ^ (s2 - s1 - 1) * 2 ^ (s1 + 1) + p % 2 ^ s1 + 2 ^ s2 := by
        conv_lhs => rw [hd]
        rw [h1, h2]
        ring
      have h := foldl_write _ _ hframe hlocal _ hpw psi
        ((p / 2 ^ (s2 + 1), p / 2 ^ (s1 + 1) % 2 ^ (s2 - s1 - 1)), p % 2 ^ s1) p
        hmem (Or.inr hdec)
      rw [h]
      simp only [swapBody]
      rw [← hdec, Function.update_same]
      congr 1
      rw [partnerIdx, h1, h2]
      ring
    · -- bit s1 = 1, bit s2 = 0 : p is the j0k1l of its tuple
      have hdec : p = p / 2 ^ (s2 + 1) * 2 ^ (s2 + 1)
          + p / 2 ^ (s1 + 1) % 2 ^ (s2 - s1 - 1) * 2 ^ (s1 + 1) + p % 2 ^ s1 + 2 ^ s1 := by
        conv_lhs => rw [hd]
        rw [h1, h2]
        ring
      have hdne : p ≠ p / 2 ^ (s2 + 1) * 2 ^ (s2 + 1)
          + p / 2 ^ (s1 + 1) % 2 ^ (s2 - s1 - 1) * 2 ^ (s1 + 1) + p % 2 ^ s1 + 2 ^ s2 := by
        conv_lhs => rw [hdec]
        exact hneq ((p / 2 ^ (s2 + 1), p / 2 ^ (s1 + 1) % 2 ^ (s2 - s1 - 1)), p % 2 ^ s1)
      have h := foldl_write _ _ hframe hlocal _ hpw psi
        ((p / 2 ^ (s2 + 1), p / 2 ^ (s1 + 1) % 2 ^ (s2 - s1 - 1)), p % 2 ^ s1) p
        hmem (Or.inl hdec)
      rw [h]
      simp only [swapBody]
      rw [Function.update_noteq hdne, ← hdec, Function.update_same]
      congr 1
      rw [partnerIdx, h1, h2]
      ring
    · -- both bits 1 : untouched
      rw [partnerIdx_self p h12 (by omega)]
      apply foldl_frame _ _ hframe _ psi p
      intro m hm hS
      obtain ⟨_, hkm, hlm⟩ := hbounds m hm
      rcases hS with he | he
      · rw [hcan1 m] at he
        have := (tproj h12 m.1.1 0 m.1.2 1 m.2 (by norm_num) hkm (by norm_num) hlm).2.1
        rw [← he] at this
        omega
      · rw [hcan2 m] at he
        have := (tproj h12 m.1.1 1 m.1.2 0 m.2 (by norm_num) hkm (by norm_num) hlm).2.2.2.1
        rw [← he] at this
        omega
  · rw [if_neg hpN]
    apply foldl_frame _ _ hframe _ psi p
    intro m hm hS
    obtain ⟨hjm, hkm, hlm⟩ := hbounds m hm
    apply hpN
    rcases hS with he | he
    · rw [he, hcan1 m]
      exact tlt h12 h2N hjm (by norm_num) hkm (by norm_num) hlm
    · rw [he, hcan2 m]
      exact tlt h12 h2N hjm (by norm_num) hkm (by norm_num) hlm

/-- Pointwise action of `applySwap`: the amplitude at `p` is fetched from
the index with the two chosen bits exchanged. -/
theorem applySwap_point (psi : ℕ → ℂ) (q1 q2 N : ℕ) (hne : q1 ≠ q2)
    (h1N : q1 < N) (h2N : q2 < N) (p : ℕ) :
    applySwap psi q1 q2 N p =
      if p < 2 ^ N then psi (partnerIdx (min q1 q2) (max q1 q2) p) else psi p := by
  rcases lt_or_gt_of_ne hne with hlt | hgt
  · have hE : applySwap psi q1 q2 N
        = forLoop (2 ^ (N - (q2 + 1))) (fun a j => forLoop (2 ^ (q2 - (q1 + 1))) (fun a2 k =>
            forLoop (2 ^ q1) (fun a3 l =>
              swapBody (2 ^ (q2 + 1)) (2 ^ (q1 + 1)) (2 ^ q1) (2 ^ q2) a3 j k l) a2) a)
            psi := by
      simp only [applySwap, if_neg (by omega : ¬ q1 > q2), pow2_eq]
    rw [hE, swap_core psi q1 q2 N hlt h2N p, min_eq_left hlt.le, max_eq_right hlt.le]
  · have hE : applySwap psi q1 q2 N
        = forLoop (2 ^ (N - (q1 + 1))) (fun a j => forLoop (2 ^ (q1 - (q2 + 1))) (fun a2 k =>
            forLoop (2 ^ q2) (fun a3 l =>
              swapBody (2 ^ (q1 + 1)) (2 ^ (q2 + 1)) (2 ^ q2) (2 ^ q1) a3 j k l) a2) a)
            psi := by
      simp only [applySwap, if_pos (by omega : q1 > q2), pow2_eq]
    rw [hE, swap_core psi q2 q1 N hgt h1N p, min_eq_right hgt.le, max_eq_left hgt.le]

/-- C8: applying `applySwap` twice with the same pair of distinct in-range
qubits restores the statevector exactly (the kernel only exchanges
amplitudes). -/
theorem applySwap_involution (psi : ℕ → ℂ) (q1 q2 N : ℕ)
    (hne : q1 ≠ q2) (h1N : q1 < N) (h2N : q2 < N) :
    applySwap (applySwap psi q1 q2 N) q1 q2 N = psi := by
  funext p
  have hs12 : min q1 q2 < max q1 q2 := min_lt_max.mpr hne
  have hmaxN : max q1 q2 < N := by
    rcases max_choice q1 q2 with h | h <;> omega
  by_cases hp : p < 2 ^ N
  · rw [applySwap_point _ q1 q2 N hne h1N h2N p, if_pos hp,
      applySwap_point psi q1 q2 N hne h1N h2N _,
      if_pos (partnerIdx_lt p hs12 hmaxN hp), partnerIdx_invol p hs12]
  · rw [applySwap_point _ q1 q2 N hne h1N h2N p, if_neg hp,
      applySwap_point psi q1 q2 N hne h1N h2N p, if_neg hp]

theorem applySwap_involution_witness :
    applySwap (applySwap (fun i : ℕ => (i : ℂ)) 0 1 2) 0 1 2 = (fun i : ℕ => (i : ℂ)) :=
  applySwap_involution (fun i : ℕ => (i : ℂ)) 0 1 2 (by norm_num) (by norm_num) (by norm_num)

/-! ### Pointwise action of applyHadamard -/

theorem applyHadamard_pair (psi : ℕ → ℂ) (t N : ℕ) (htN : t < N) (j k : ℕ)
    (hj : j < 2 ^ (N - (t + 1))) (hk : k < 2 ^ t) :
    applyHadamard psi t N (j * 2 ^ (t + 1) + k)
        = ((1 / Real.sqrt 2 : ℝ) : ℂ) * psi (j * 2 ^ (t + 1) + k)
          + ((1 / Real.sqrt 2 : ℝ) : ℂ) * psi (j * 2 ^ (t + 1) + k + 2 ^ t)
      ∧ applyHadamard psi t N (j * 2 ^ (t + 1) + k + 2 ^ t)
        = ((1 / Real.sqrt 2 : ℝ) : ℂ) * psi (j * 2 ^ (t + 1) + k)
          - ((1 / Real.sqrt 2 : ℝ) : ℂ) * psi (j * 2 ^ (t + 1) + k + 2 ^ t) := by
  have hpos : 0 < 2 ^ t := Nat.pos_pow_of_pos t (by norm_num)
  have hE : applyHadamard psi t N
      = (prodL (List.range (2 ^ (N - (t + 1)))) (List.range (2 ^ t))).foldl
          (fun a q => hadBody (1 / Real.sqrt 2) (2 ^ (t + 1)) (2 ^ t) a q.1 q.2) psi := by
    simp only [applyHadamard, pow2_eq]
    exact forLoop_two _ _ _ psi
  have hne0 : ∀ m : ℕ × ℕ, m.1 * 2 ^ (t + 1) + m.2 ≠ m.1 * 2 ^ (t + 1) + m.2 + 2 ^ t := by
    intro m
    omega
  have hframe : ∀ (b : ℕ → ℂ) (m : ℕ × ℕ) (q : ℕ),
      ¬ (q = m.1 * 2 ^ (t + 1) + m.2 ∨ q = m.1 * 2 ^ (t + 1) + m.2 + 2 ^ t) →
      hadBody (1 / Real.sqrt 2) (2 ^ (t + 1)) (2 ^ t) b m.1 m.2 q = b q := by
    intro b m q hq
    push_neg at hq
    simp only [hadBody]
    rw [Function.update_noteq hq.2, Function.update_noteq hq.1]
  have hlocal : ∀ (b c : ℕ → ℂ) (m : ℕ × ℕ),
      (∀ q : ℕ, (q = m.1 * 2 ^ (t + 1) + m.2 ∨ q = m.1 * 2 ^ (t + 1) + m.2 + 2 ^ t) →
        b q = c q) →
      ∀ q : ℕ, (q = m.1 * 2 ^ (t + 1) + m.2 ∨ q = m.1 * 2 ^ (t + 1) + m.2 + 2 ^ t) →
      hadBody (1 / Real.sqrt 2) (2 ^ (t + 1)) (2 ^ t) b m.1 m.2 q
        = hadBody (1 / Real.sqrt 2) (2 ^ (t + 1)) (2 ^ t) c m.1 m.2 q := by
    intro b c m hag q hq
    have hv0 := hag _ (Or.inl rfl)
    have hv1 := hag _ (Or.inr rfl)
    simp only [hadBody]
    rcases hq with he | he
    · rw [he, Function.update_noteq (hne0 m), Function.update_noteq (hne0 m),
        Function.update_same, Function.update_same, hv0, hv1]
    · rw [he, Function.update_same, Function.update_same, hv0, hv1]
  have hcan0 : ∀ m : ℕ × ℕ,
      m.1 * 2 ^ (t + 1) + m.2 = m.1 * 2 ^ (t + 1) + 0 * 2 ^ t + m.2 := by
    intro m
    ring
  have hcan1 : ∀ m : ℕ × ℕ,
      m.1 * 2 ^ (t + 1) + m.2 + 2 ^ t = m.1 * 2 ^ (t + 1) + 1 * 2 ^ t + m.2 := by
    intro m
    ring
  have hpw : (prodL (List.range (2 ^ (N - (t + 1)))) (List.range (2 ^ t))).Pairwise
      (fun m1 m2 : ℕ × ℕ => ∀ q : ℕ,
        (q = m1.1 * 2 ^ (t + 1) + m1.2 ∨ q = m1.1 * 2 ^ (t + 1) + m1.2 + 2 ^ t) →
        ¬ (q = m2.1 * 2 ^ (t + 1) + m2.2 ∨ q = m2.1 * 2 ^ (t + 1) + m2.2 + 2 ^ t)) := by
    apply (nodup_prodL (List.nodup_range _) (List.nodup_range _)).pairwise_of_forall_ne
    intro m1 hm1 m2 hm2 hne q hq1 hq2
    rw [mem_prodL] at hm1 hm2
    have hk1 := List.mem_range.mp hm1.2
    have hk2 := List.mem_range.mp hm2.2
    rcases hq1 with he1 | he1 <;> rcases hq2 with he2 | he2 <;> rw [he1] at he2
    · rw [hcan0 m1, hcan0 m2] at he2
      obtain ⟨hja, _, hka⟩ := dinj (by norm_num) hk1 (by norm_num) hk2 he2
      exact hne (Prod.ext hja hka)
    · rw [hcan0 m1, hcan1 m2] at he2
      obtain ⟨_, hb, _⟩ := dinj (by norm_num) hk1 (by norm_num) hk2 he2
      exact absurd hb (by norm_num)
    · rw [hcan1 m1, hcan0 m2] at he2
      obtain ⟨_, hb, _⟩ := dinj (by norm_num) hk1 (by norm_num) hk2 he2
      exact absurd hb (by norm_num)
    · rw [hcan1 m1, hcan1 m2] at he2
      obtain ⟨hja, _, hka⟩ := dinj (by norm_num) hk1 (by norm_num) hk2 he2
      exact hne (Prod.ext hja hka)
  have hmem : (j, k) ∈ prodL (List.range (2 ^ (N - (t + 1)))) (List.range (2 ^ t)) :=
    mem_prodL.mpr ⟨List.mem_range.mpr hj, List.mem_range.mpr hk⟩
  constructor
  · rw [hE, foldl_write _ _ hframe hlocal _ hpw psi (j, k) _ hmem (Or.inl rfl)]
    simp only [hadBody]
    rw [Function.update_noteq (hne0 (j, k)), Function.update_same]
  · rw [hE, foldl_write _ _ hframe hlocal _ hpw psi (j, k) _ hmem (Or.inr rfl)]
    simp only [hadBody]
    rw [Function.update_same]

/-- C6: `applyHadamard` replaces every pair of amplitudes differing only
in the target bit by `((a0+a1)/sqrt 2, (a0-a1)/sqrt 2)`; in particular on
the 3-qubit basis state `|000>` with target 1, the output is `1/sqrt 2`
exactly at flat indices 0 and 2, and zero elsewhere. -/
theorem applyHadamard_spec (psi : ℕ → ℂ) (t N : ℕ) (htN : t < N) (j k : ℕ)
    (hj : j < 2 ^ (N - (t + 1))) (hk : k < 2 ^ t) :
    (applyHadamard psi t N (j * 2 ^ (t + 1) + k)
        = (psi (j * 2 ^ (t + 1) + k) + psi (j * 2 ^ (t + 1) + k + 2 ^ t))
            / ((Real.sqrt 2 : ℝ) : ℂ)
      ∧ applyHadamard psi t N (j * 2 ^ (t + 1) + k + 2 ^ t)
        = (psi (j * 2 ^ (t + 1) + k) - psi (j * 2 ^ (t + 1) + k + 2 ^ t))
            / ((Real.sqrt 2 : ℝ) : ℂ))
    ∧ (∀ i < 8, applyHadamard (fun i : ℕ => if i = 0 then (1 : ℂ) else 0) 1 3 i
        = if i = 0 ∨ i = 2 then ((1 / Real.sqrt 2 : ℝ) : ℂ) else 0)
    ∧ ((1 / Real.sqrt 2 : ℝ) : ℂ) ≠ 0 := by
  have h := applyHadamard_pair psi t N htN j k hj hk
  refine ⟨⟨?_, ?_⟩, ?_, ?_⟩
  · rw [h.1]
    push_cast
    ring
  · rw [h.2]
    push_cast
    ring
  · intro i hi
    interval_cases i
    · simpa using (applyHadamard_pair (fun i : ℕ => if i = 0 then (1 : ℂ) else 0) 1 3
        (by norm_num) 0 0 (by norm_num) (by norm_num)).1
    · simpa using (applyHadamard_pair (fun i : ℕ => if i = 0 then (1 : ℂ) else 0) 1 3
        (by norm_num) 0 1 (by norm_num) (by norm_num)).1
    · simpa using (applyHadamard_pair (fun i : ℕ => if i = 0 then (1 : ℂ) else 0) 1 3
        (by norm_num) 0 0 (by norm_num) (by norm_num)).2
    · simpa using (applyHadamard_pair (fun i : ℕ => if i = 0 then (1 : ℂ) else 0) 1 3
        (by norm_num) 0 1 (by norm_num) (by norm_num)).2
    · simpa using (applyHadamard_pair (fun i : ℕ => if i = 0 then (1 : ℂ) else 0) 1 3
        (by norm_num) 1 0 (by norm_num) (by norm_num)).1
    · simpa using (applyHadamard_pair (fun i : ℕ => if i = 0 then (1 : ℂ) else 0) 1 3
        (by norm_num) 1 1 (by norm_num) (by norm_num)).1
    · simpa using (applyHadamard_pair (fun i : ℕ => if i = 0 then (1 : ℂ) else 0) 1 3
        (by norm_num) 1 0 (by norm_num) (by norm_num)).2
    · simpa using (applyHadamard_pair (fun i : ℕ => if i = 0 then (1 : ℂ) else 0) 1 3
        (by norm_num) 1 1 (by norm_num) (by norm_num)).2
  · have h2 : (0 : ℝ) < 1 / Real.sqrt 2 := by positivity
    exact Complex.ofReal_ne_zero.mpr (ne_of_gt h2)

/-! ### The merged diagonal equals the chain of controlled phases -/

theorem mod_pow_succ (p c : ℕ) :
    p % 2 ^ (c + 1) = p / 2 ^ c % 2 * 2 ^ c + p % 2 ^ c := by
  have hl : p % 2 ^ c < 2 ^ c := Nat.mod_lt _ (Nat.pos_pow_of_pos c (by norm_num))
  have hlt : p / 2 ^ c % 2 * 2 ^ c + p % 2 ^ c < 2 ^ (c + 1) := by
    have h2 := pow_succ_two c
    have h3 : p / 2 ^ c % 2 * 2 ^ c ≤ 1 * 2 ^ c :=
      Nat.mul_le_mul_right _ (by omega)
    omega
  conv_lhs => rw [ddecomp c p]
  have e : p / 2 ^ (c + 1) * 2 ^ (c + 1) + p / 2 ^ c % 2 * 2 ^ c + p % 2 ^ c
      = 2 ^ (c + 1) * (p / 2 ^ (c + 1)) + (p / 2 ^ c % 2 * 2 ^ c + p % 2 ^ c) := by
    ring
  rw [e, Nat.mul_add_mod, Nat.mod_eq_of_lt hlt]

theorem mpAux_point (N tMax : ℕ) (htN : tMax < N) :
    ∀ c, c ≤ tMax → ∀ (a : ℕ → ℂ) (p : ℕ),
      mpAux N tMax c (tMax + 2 - c) a p =
        if p < 2 ^ N ∧ p / 2 ^ tMax % 2 = 1
        then a p * expI (2 * Real.pi / ((2 ^ (tMax + 1) : ℕ) : ℝ) * ((p % 2 ^ c : ℕ) : ℝ))
        else a p := by
  intro c
  induction c with
  | zero =>
    intro _ a p
    simp only [mpAux, pow_zero, Nat.mod_one]
    rw [Nat.cast_zero, mul_zero, expI_zero, mul_one, ite_self]
  | succ c ih =>
    intro hc a p
    have hstep : mpAux N tMax (c + 1) (tMax + 2 - (c + 1)) a
        = mpAux N tMax c (tMax + 2 - (c + 1) + 1)
            (applyControlledPhase a tMax c
              (2 * Real.pi / ((pow2 (tMax + 2 - (c + 1)) : ℕ) : ℝ)) N) := rfl
    rw [hstep, show tMax + 2 - (c + 1) + 1 = tMax + 2 - c from by omega]
    rw [ih (by omega) _ p]
    have hcN : c < N := by omega
    have hcp := applyControlledPhase_point a tMax c
      (2 * Real.pi / ((pow2 (tMax + 2 - (c + 1)) : ℕ) : ℝ)) N (by omega) htN hcN p
    by_cases hmain : p < 2 ^ N ∧ p / 2 ^ tMax % 2 = 1
    · rw [if_pos hmain, if_pos hmain, hcp]
      by_cases hbc : p / 2 ^ c % 2 = 1
      · rw [if_pos ⟨hmain.1, hmain.2, hbc⟩, mul_assoc, ← expI_add]
        congr 2
        rw [mod_pow_succ p c, hbc,
          show tMax + 2 - (c + 1) = tMax + 1 - c from by omega, pow2_eq]
        have hsplit : (((2 : ℕ) ^ (tMax + 1) : ℕ) : ℝ)
            = (((2 : ℕ) ^ (tMax + 1 - c) : ℕ) : ℝ) * (((2 : ℕ) ^ c : ℕ) : ℝ) := by
          rw [← Nat.cast_mul, pow_mul_pow_eq (tMax + 1 - c) c (tMax + 1) (by omega)]
        push_cast at hsplit ⊢
        rw [hsplit]
        have hne1 : ((2 : ℝ) ^ (tMax + 1 - c)) ≠ 0 := by positivity
        have hne2 : ((2 : ℝ) ^ c) ≠ 0 := by positivity
        field_simp
        ring
      · rw [if_neg (fun hx => hbc hx.2.2)]
        have hb0 : p / 2 ^ c % 2 = 0 := by omega
        rw [mod_pow_succ p c, hb0]
        norm_num
    · rw [if_neg hmain, if_neg hmain, hcp, if_neg (fun hx => hmain ⟨hx.1, hx.2.1⟩)]

/-- The single merged-diagonal pass has exactly the same action as the
chain of controlled-phase gates it replaces. -/
theorem multiple_eq_merged (psi : ℕ → ℂ) (tMax N : ℕ) (htN : tMax < N) :
    applyMultiplePhases psi tMax N = applyMergedPhases psi tMax N := by
  funext p
  have h1 := mpAux_point N tMax htN tMax (le_refl tMax) psi p
  rw [show tMax + 2 - tMax = 2 from by omega] at h1
  rw [show applyMultiplePhases psi tMax N = mpAux N tMax tMax 2 psi from rfl, h1,
    applyMergedPhases_point psi tMax N htN p]
  by_cases hp : p < 2 ^ N ∧ p / 2 ^ tMax % 2 = 1
  · rw [if_pos hp, if_pos hp]
    congr 2
    rw [Nat.and_pow_two_sub_one_eq_mod]
    push_cast
    rw [pow_succ]
    have hne : ((2 : ℝ) ^ tMax) ≠ 0 := by positivity
    field_simp
    ring
  · rw [if_neg hp, if_neg hp]

theorem applyHadamard_spec_witness :
    applyHadamard (fun i : ℕ => if i = 0 then (1 : ℂ) else 0) 1 3 (0 * 2 ^ (1 + 1) + 0)
      = ((fun i : ℕ => if i = 0 then (1 : ℂ) else 0) (0 * 2 ^ (1 + 1) + 0)
          + (fun i : ℕ => if i = 0 then (1 : ℂ) else 0) (0 * 2 ^ (1 + 1) + 0 + 2 ^ 1))
        / ((Real.sqrt 2 : ℝ) : ℂ) :=
  (applyHadamard_spec (fun i : ℕ => if i = 0 then (1 : ℂ) else 0) 1 3 (by norm_num) 0 0
    (by norm_num) (by norm_num)).1.1

/-- C5: `applyMergedPhases` multiplies exactly the amplitudes whose index
has bit `t` set by `e^(i theta)` with
`theta = (pi / 2^t) * (index & (2^t - 1))`, and leaves bit-`t`-clear
amplitudes unchanged. -/
theorem applyMergedPhases_spec (psi : ℕ → ℂ) (t N : ℕ) (htN : t < N) (p : ℕ)
    (hp : p < 2 ^ N) :
    (getBit p t = 1 → applyMergedPhases psi t N p
        = psi p * expI (Real.pi / ((2 ^ t : ℕ) : ℝ) * ((p &&& (2 ^ t - 1) : ℕ) : ℝ)))
      ∧ (getBit p t = 0 → applyMergedPhases psi t N p = psi p) := by
  constructor
  · intro hb
    rw [getBit_eq] at hb
    rw [applyMergedPhases_point psi t N htN p, if_pos ⟨hp, hb⟩]
  · intro hb
    rw [getBit_eq] at hb
    rw [applyMergedPhases_point psi t N htN p, if_neg]
    rintro ⟨_, h1⟩
    omega

theorem applyMergedPhases_spec_witness :
    (getBit 1 0 = 1 → applyMergedPhases (fun _ : ℕ => (1 : ℂ)) 0 1 1
        = (fun _ : ℕ => (1 : ℂ)) 1
            * expI (Real.pi / ((2 ^ 0 : ℕ) : ℝ) * ((1 &&& (2 ^ 0 - 1) : ℕ) : ℝ)))
      ∧ (getBit 1 0 = 0 → applyMergedPhases (fun _ : ℕ => (1 : ℂ)) 0 1 1
          = (fun _ : ℕ => (1 : ℂ)) 1) :=
  applyMergedPhases_spec (fun _ : ℕ => (1 : ℂ)) 0 1 (by norm_num) 1 (by norm_num)

/-! ### The two QFT compositions agree -/

theorem qftAux_eq (N : ℕ) : ∀ t, t < N → ∀ a : ℕ → ℂ, qftAuxC N t a = qftAuxA N t a := by
  intro t
  induction t with
  | zero => intro _ a; rfl
  | succ t ih =>
    intro ht a
    show qftAuxC N t (applyMultiplePhases (applyHadamard a (t + 1) N) (t + 1) N)
        = qftAuxA N t (applyMergedPhases (applyHadamard a (t + 1) N) (t + 1) N)
    rw [multiple_eq_merged _ (t + 1) N ht]
    exact ih (by omega) _

/-- C2: `applyQFTCircuit` (explicit per-pair controlled phases) and
`applyQFTAlgorithm` (merged diagonal phases) compute exactly the same
function on every statevector and every qubit count; in particular, on
the normalized all-ones 4-qubit input every amplitude of the two outputs
agrees within 1e-9. -/
theorem applyQFT_equiv :
    (∀ (N : ℕ) (psi : ℕ → ℂ), applyQFTCircuit psi N = applyQFTAlgorithm psi N)
      ∧ (∀ i : ℕ, Complex.abs (applyQFTCircuit (fun _ : ℕ => (1 / 4 : ℂ)) 4 i
          - applyQFTAlgorithm (fun _ : ℕ => (1 / 4 : ℂ)) 4 i) ≤ 1e-9) := by
  have hmain : ∀ (N : ℕ) (psi : ℕ → ℂ), applyQFTCircuit psi N = applyQFTAlgorithm psi N := by
    intro N psi
    have h : qftAuxC N (N - 1) psi = qftAuxA N (N - 1) psi := by
      rcases Nat.eq_zero_or_pos N with h0 | hpos
      · subst h0
        rfl
      · exact qftAux_eq N (N - 1) (by omega) psi
    show forLoop (N / 2) (fun a t => applySwap a t (N - t - 1) N)
        (applyHadamard (qftAuxC N (N - 1) psi) 0 N)
      = forLoop (N / 2) (fun a t => applySwap a t (N - t - 1) N)
        (applyHadamard (qftAuxA N (N - 1) psi) 0 N)
    rw [h]
  refine ⟨hmain, ?_⟩
  intro i
  rw [hmain 4 (fun _ : ℕ => (1 / 4 : ℂ))]
  simp
  norm_num

end

/-! ## Statevector lifecycle (utilities.h) -/

/-- Function `createStatevector` from utilities.h.  The C `malloc` is
external code, modelled by a byte-level allocation oracle `alloc`:
`alloc k` is the buffer `malloc(k)` yields for a request of `k` bytes
(`none` is a NULL pointer; glibc returns a usable non-NULL zero-byte
buffer for `malloc(0)`).  The source computes
`numAmps = pow2(numQubits)` and requests `numAmps * sizeof *vec` bytes;
both live in the 64-bit `index` type, so the multiplication wraps
modulo `2^64` (`sizeof(double complex)` is 16; the shift inside `pow2`
itself is exact for `numQubits <= 63`, beyond which the C shift is
undefined behavior and out of scope).  The result of `malloc` is
returned unchanged. -/
def createStatevector (alloc : ℕ → Option (List ℂ)) (numQubits : ℕ) : Option (List ℂ) :=
  alloc (pow2 numQubits * 16 % 2 ^ 64)

/-- C9 (divergence): at `numQubits = 60` the byte-size computation
`2^60 * 16` wraps to 0 modulo `2^64`, so the source calls `malloc(0)`;
for every allocator that, like glibc, answers a 0-byte request with a
non-NULL empty buffer, `createStatevector` hands the caller a
usable-looking `some` buffer holding 0 of the 2^60 requested amplitudes,
with no failure report. -/
theorem createStatevector_wraps :
    pow2 60 * 16 % 2 ^ 64 = 0
      ∧ (∀ alloc : ℕ → Option (List ℂ), alloc 0 = some [] →
          createStatevector alloc 60 = some []
            ∧ ([] : List ℂ).length ≠ 2 ^ 60) := by
  have hwrap : pow2 60 * 16 % 2 ^ 64 = 0 := by
    rw [pow2_eq]
    norm_num
  refine ⟨hwrap, ?_⟩
  intro alloc h
  refine ⟨?_, by simp⟩
  rw [createStatevector, hwrap]
  exact h

theorem createStatevector_wraps_witness :
    (fun k => if k = 0 then some ([] : List ℂ) else none) 0 = some ([] : List ℂ)
      ∧ createStatevector (fun k => if k = 0 then some ([] : List ℂ) else none) 60
          = some []
      ∧ ([] : List ℂ).length ≠ 2 ^ 60 :=
  ⟨by simp,
    (createStatevector_wraps.2 (fun k => if k = 0 then some ([] : List ℂ) else none)
      (by simp)).1,
    (createStatevector_wraps.2 (fun k => if k = 0 then some ([] : List ℂ) else none)
      (by simp)).2⟩

/-- C10: the two phrasings of `insertZeroBit` in the sources agree: the
shift-xor body equals the affix reconstruction
`(num >> i) << (i+1) | (num & (2^i - 1))`, and both compute `num` with a
0 bit inserted at position `i` (bits below `i` kept, bits at or above `i`
shifted up by one). -/
theorem insertZeroBit_equiv (num i : ℕ) :
    insertZeroBit num i = getZeroBitFromAffix (num >>> i) (truncateBits num i) i
      ∧ insertZeroBit num i = ((num >>> i) <<< (i + 1)) ||| (num &&& (2 ^ i - 1))
      ∧ (∀ b, Nat.testBit (insertZeroBit num i) b =
          if b < i then Nat.testBit num b
          else if b = i then false
          else Nat.testBit num (b - 1)) := by
  have hpos : 0 < 2 ^ i := Nat.pos_pow_of_pos i (by norm_num)
  have hmod : num % 2 ^ i < 2 ^ i := Nat.mod_lt _ hpos
  have hmod1 : num % 2 ^ i < 2 ^ (i + 1) :=
    lt_of_lt_of_le hmod (Nat.pow_le_pow_right (by norm_num) (Nat.le_succ i))
  have htr : truncateBits num i = num % 2 ^ i := by
    rw [truncateBits, pow2_eq, Nat.and_pow_two_sub_one_eq_mod]
  have h1 : insertZeroBit num i = getZeroBitFromAffix (num >>> i) (truncateBits num i) i := by
    rw [insertZeroBit_eq, htr, getZeroBitFromAffix_eq hmod1, Nat.shiftRight_eq_div_pow]
  refine ⟨h1, ?_, ?_⟩
  · rw [h1, getZeroBitFromAffix, htr, Nat.shiftLeft_eq, Nat.and_pow_two_sub_one_eq_mod]
  · intro b
    rw [insertZeroBit_eq]
    rcases Nat.lt_trichotomy b i with hb | hb | hb
    · rw [if_pos hb, testBit_mul_add_low _ (by omega), Nat.testBit_mod_two_pow]
      simp [hb]
    · subst hb
      rw [if_neg (by omega), if_pos rfl, testBit_mul_add_low _ (by omega)]
      exact Nat.testBit_lt_two_pow hmod
    · rw [if_neg (by omega), if_neg (by omega),
        testBit_mul_add_high _ hmod1 (by omega)]
      rw [show num / 2 ^ i = num >>> i from (Nat.shiftRight_eq_div_pow num i).symm,
        Nat.testBit_shiftRight]
      congr 1
      omega

end DAT
